import Mathlib

/-!
# chat_server: a verification development

Shallow embedding of the chat server's session pumps (`internal/chat/client.go`),
message type (`internal/chat/message.go`), identity gate and HTTP handlers
(`internal/server/server.go`), SSO client (`internal/clients/sso/grpc/grpc.go`)
and configuration loader (`internal/config/config.go`).

Conventions.
* A Go `[]byte`, and a Go `string` that the pumps handle as bytes (payloads, sender
  labels), is a `List Nat`, every element being a byte value (below 256).  A `nil` slice
  and an empty slice are both `[]`.  Strings of the HTTP and configuration layers, which
  are only compared and concatenated, are `String`s.
* A Go `rune` is a `Nat` (only non-negative runes occur).
* The Go standard-library functions the pumps call (`bytes.Replace`,
  `bytes.TrimSpace`, `unicode/utf8`, `unicode.IsSpace`) are embedded from the
  standard library's sources, in namespaces named after their packages.  Loops are
  recursions on a fuel that the callers set high enough for the loop to end by itself.
* Calls into the websocket connection, the hub, the JWT, UUID and JSON libraries and the
  remote identity service are inputs of the embedded functions (what the call returns)
  or events in their output (what the call was).
-/

/-! ## Package `unicode/utf8` -/

namespace utf8

def RuneError : Nat := 0xFFFD
def RuneSelf : Nat := 0x80
def UTFMax : Nat := 4

def maskx : Nat := 0x3F
def mask2 : Nat := 0x1F
def mask3 : Nat := 0x0F
def mask4 : Nat := 0x07

def locb : Nat := 0x80
def hicb : Nat := 0xBF

/-- The table `first`: information about the first byte of a UTF-8 sequence.
`0xF0` is `as` (ASCII, size 1), `0xF1` is `xx` (invalid, size 1); otherwise the low
three bits are the size and the high four bits the index into `acceptRanges`. -/
def first (b : Nat) : Nat :=
  if b < 0x80 then 0xF0
  else if b < 0xC2 then 0xF1
  else if b < 0xE0 then 0x02
  else if b = 0xE0 then 0x13
  else if b < 0xED then 0x03
  else if b = 0xED then 0x23
  else if b < 0xF0 then 0x03
  else if b = 0xF0 then 0x34
  else if b < 0xF4 then 0x04
  else if b = 0xF4 then 0x44
  else 0xF1

/-- The table `acceptRanges` (16 entries, those past index 4 zero-valued):
the accepted range `(lo, hi)` of the second byte. -/
def acceptRanges (i : Nat) : Nat × Nat :=
  match i with
  | 0 => (locb, hicb)
  | 1 => (0xA0, hicb)
  | 2 => (locb, 0x9F)
  | 3 => (0x90, hicb)
  | 4 => (locb, 0x8F)
  | _ => (0, 0)

/-- The function `utf8.DecodeRune`: the first rune of `p` and its width in bytes;
`(RuneError, 0)` for empty input and `(RuneError, 1)` for an invalid encoding. -/
def DecodeRune (p : List Nat) : Nat × Nat :=
  let n := p.length
  if n < 1 then (RuneError, 0) else
  let p0 := p.getD 0 0
  let x := first p0
  if x ≥ 0xF0 then
    -- mask is all ones exactly when the low bit of x is set (x = xx)
    (if x % 2 = 1 then RuneError else p0, 1)
  else
  let sz := x &&& 7
  let accept := acceptRanges (x >>> 4)
  if n < sz then (RuneError, 1) else
  let b1 := p.getD 1 0
  if b1 < accept.1 ∨ accept.2 < b1 then (RuneError, 1) else
  if sz ≤ 2 then (((p0 &&& mask2) <<< 6) ||| (b1 &&& maskx), 2) else
  let b2 := p.getD 2 0
  if b2 < locb ∨ hicb < b2 then (RuneError, 1) else
  if sz ≤ 3 then (((p0 &&& mask3) <<< 12) ||| ((b1 &&& maskx) <<< 6) ||| (b2 &&& maskx), 3) else
  let b3 := p.getD 3 0
  if b3 < locb ∨ hicb < b3 then (RuneError, 1) else
  (((p0 &&& mask4) <<< 18) ||| ((b1 &&& maskx) <<< 12) ||| ((b2 &&& maskx) <<< 6)
    ||| (b3 &&& maskx), 4)

/-- The function `utf8.RuneStart`: `b` is not a continuation byte. -/
def RuneStart (b : Nat) : Bool := (b &&& 0xC0) != 0x80

/-- The backwards scan of `DecodeLastRune`:
`for start--; start >= lim; start-- { if RuneStart(p[start]) { break } }`,
entered after the initial `start--`. At most `UTFMax - 1` iterations run. -/
def scanBack (p : List Nat) (lim : Int) : Nat → Int → Int
  | 0, start => start
  | fuel + 1, start =>
    if start ≥ lim then
      if RuneStart (p.getD start.toNat 0) then start
      else scanBack p lim fuel (start - 1)
    else start

/-- The function `utf8.DecodeLastRune`: the last rune of `p` and its width. -/
def DecodeLastRune (p : List Nat) : Nat × Nat :=
  let end_ := p.length
  if end_ = 0 then (RuneError, 0) else
  let start : Int := (end_ : Int) - 1
  let r := p.getD start.toNat 0
  if r < RuneSelf then (r, 1) else
  let lim : Int := if (end_ : Int) - (UTFMax : Int) < 0 then 0 else (end_ : Int) - (UTFMax : Int)
  let start := scanBack p lim UTFMax (start - 1)
  let start := if start < 0 then 0 else start
  let rs := DecodeRune ((p.drop start.toNat).take (end_ - start.toNat))
  if start + (rs.2 : Int) ≠ (end_ : Int) then (RuneError, 1) else rs

/-- The function `utf8.RuneCount`, by fuel `p.length`: the number of runes in `p`,
an invalid byte counting as one rune of width 1. -/
def RuneCountAux : Nat → List Nat → Nat
  | 0, _ => 0
  | fuel + 1, p =>
    if p.length = 0 then 0
    else 1 + RuneCountAux fuel (p.drop (DecodeRune p).2)

def RuneCount (p : List Nat) : Nat := RuneCountAux p.length p

end utf8

/-! ## Package `unicode` -/

namespace unicode

def MaxLatin1 : Nat := 0xFF

/-- The 16-bit ranges `(Lo, Hi, Stride)` of the table `White_Space` (it has no 32-bit
ranges). -/
def White_Space_R16 : List (Nat × Nat × Nat) :=
  [(0x0009, 0x000d, 1), (0x0020, 0x0085, 101), (0x00a0, 0x1680, 5600), (0x2000, 0x200a, 1),
   (0x2028, 0x2029, 1), (0x202f, 0x205f, 48), (0x3000, 0x3000, 1)]

/-- The field `LatinOffset` of `White_Space`: the number of ranges within Latin-1. -/
def White_Space_LatinOffset : Nat := 2

/-- The linear search of `unicode.is16` (the table has fewer than 18 ranges). -/
def is16 : List (Nat × Nat × Nat) → Nat → Bool
  | [], _ => false
  | (lo, hi, stride) :: rest, r =>
    if r < lo then false
    else if r ≤ hi then stride = 1 || (r - lo) % stride = 0
    else is16 rest r

/-- The function `unicode.isExcludingLatin` on the table `White_Space`. -/
def isExcludingLatin (r : Nat) : Bool :=
  let r16 := White_Space_R16
  let off := White_Space_LatinOffset
  if r16.length > off ∧ r ≤ (r16.getD (r16.length - 1) (0, 0, 0)).2.1 then
    is16 (r16.drop off) r
  else false

/-- The function `unicode.IsSpace`. -/
def IsSpace (r : Nat) : Bool :=
  if r ≤ MaxLatin1 then
    r = 0x09 || r = 0x0A || r = 0x0B || r = 0x0C || r = 0x0D || r = 0x20 || r = 0x85 || r = 0xA0
  else isExcludingLatin r

end unicode

/-! ## Package `bytes` -/

namespace bytes

/-- The table `asciiSpace`: 1 for the six ASCII white-space bytes, 0 otherwise. -/
def asciiSpace (c : Nat) : Nat :=
  if c = 0x09 ∨ c = 0x0A ∨ c = 0x0B ∨ c = 0x0C ∨ c = 0x0D ∨ c = 0x20 then 1 else 0

/-- The loop of `bytes.indexFunc`, started at byte index `start`; `-1` when no rune
satisfies `f r == truth`.  Each iteration advances `start` by at least one byte, so
the fuel `s.length` given by `indexFunc` is never exhausted before the loop ends. -/
def indexFuncAux (s : List Nat) (f : Nat → Bool) (truth : Bool) : Nat → Nat → Int
  | 0, _ => -1
  | fuel + 1, start =>
    if start < s.length then
      let r0 := s.getD start 0
      let rw := if r0 ≥ utf8.RuneSelf then utf8.DecodeRune (s.drop start) else (r0, 1)
      if f rw.1 = truth then (start : Int)
      else indexFuncAux s f truth fuel (start + rw.2)
    else -1

def indexFunc (s : List Nat) (f : Nat → Bool) (truth : Bool) : Int :=
  indexFuncAux s f truth s.length 0

/-- The loop of `bytes.lastIndexFunc`, entered with loop variable `i`; each
iteration lowers `i` by the size of the rune that ends at `i` (at least 1, at most `i`). -/
def lastIndexFuncAux (s : List Nat) (f : Nat → Bool) (truth : Bool) : Nat → Nat → Int
  | 0, _ => -1
  | fuel + 1, i =>
    if i > 0 then
      let r0 := s.getD (i - 1) 0
      let rs := if r0 ≥ utf8.RuneSelf then utf8.DecodeLastRune (s.take i) else (r0, 1)
      let i1 := i - rs.2
      if f rs.1 = truth then (i1 : Int)
      else lastIndexFuncAux s f truth fuel i1
    else -1

def lastIndexFunc (s : List Nat) (f : Nat → Bool) (truth : Bool) : Int :=
  lastIndexFuncAux s f truth s.length s.length

/-- The function `bytes.TrimLeftFunc`. -/
def TrimLeftFunc (s : List Nat) (f : Nat → Bool) : List Nat :=
  let i := indexFunc s f false
  if i = -1 then [] else s.drop i.toNat

/-- The function `bytes.TrimRightFunc`. -/
def TrimRightFunc (s : List Nat) (f : Nat → Bool) : List Nat :=
  let i := lastIndexFunc s f false
  let i :=
    if i ≥ 0 ∧ s.getD i.toNat 0 ≥ utf8.RuneSelf then
      i + ((utf8.DecodeRune (s.drop i.toNat)).2 : Int)
    else i + 1
  s.take i.toNat

/-- The function `bytes.TrimFunc`. -/
def TrimFunc (s : List Nat) (f : Nat → Bool) : List Nat :=
  TrimRightFunc (TrimLeftFunc s f) f

/-- Outcome of one of the two ASCII scanning loops of `bytes.TrimSpace`: the function
returned from inside the loop, or the loop ended with the given index. -/
inductive Scan where
  | ret (out : List Nat)
  | idx (i : Nat)
  deriving Repr, DecidableEq

/-- First loop of `bytes.TrimSpace`: look for the first ASCII non-space byte. -/
def trimSpaceStart (s : List Nat) : Nat → Nat → Scan
  | 0, start => .idx start
  | fuel + 1, start =>
    if start < s.length then
      let c := s.getD start 0
      if c ≥ utf8.RuneSelf then .ret (TrimFunc (s.drop start) unicode.IsSpace)
      else if asciiSpace c = 0 then .idx start
      else trimSpaceStart s fuel (start + 1)
    else .idx start

/-- Second loop of `bytes.TrimSpace`: look for the first ASCII non-space byte from the end. -/
def trimSpaceStop (s : List Nat) (start : Nat) : Nat → Nat → Scan
  | 0, stop => .idx stop
  | fuel + 1, stop =>
    if stop > start then
      let c := s.getD (stop - 1) 0
      if c ≥ utf8.RuneSelf then
        .ret (TrimFunc ((s.take stop).drop start) unicode.IsSpace)
      else if asciiSpace c = 0 then .idx stop
      else trimSpaceStop s start fuel (stop - 1)
    else .idx stop

/-- The function `bytes.TrimSpace`: slices off all leading and trailing white
space, as defined by Unicode. -/
def TrimSpace (s : List Nat) : List Nat :=
  match trimSpaceStart s s.length 0 with
  | .ret out => out
  | .idx start =>
    match trimSpaceStop s start s.length s.length with
    | .ret out => out
    | .idx stop =>
      if start = stop then [] else (s.take stop).drop start

/-- The function `bytes.HasPrefix`. -/
def HasPrefix (s pre : List Nat) : Bool :=
  decide (s.length ≥ pre.length) && decide (s.take pre.length = pre)

/-- The function `bytes.Index`: index of the first instance of `sep` in `s`, or `-1`. -/
def Index : List Nat → List Nat → Int
  | [], sep => if sep = [] then 0 else -1
  | b :: s, sep =>
    if HasPrefix (b :: s) sep then 0
    else
      let i := Index s sep
      if i = -1 then -1 else i + 1

/-- The loop of `bytes.Count` for a non-empty `sep`: the number of non-overlapping
instances of `sep` in `s`.  Each iteration drops at least one byte. -/
def CountAux (sep : List Nat) : Nat → List Nat → Nat → Nat
  | 0, _, n => n
  | fuel + 1, s, n =>
    let i := Index s sep
    if i = -1 then n
    else CountAux sep fuel (s.drop (i.toNat + sep.length)) (n + 1)

/-- The function `bytes.Count`. -/
def Count (s sep : List Nat) : Nat :=
  if sep.length = 0 then utf8.RuneCount s + 1
  else CountAux sep (s.length + 1) s 0

/-- The replacement loop of `bytes.Replace`, `i` counting up to `n`; the buffer `t`
is built by appending. -/
def ReplaceLoop (s old new : List Nat) (n : Nat) : Nat → Nat → Nat → List Nat → List Nat
  | 0, _, start, t => t ++ s.drop start
  | fuel + 1, i, start, t =>
    if i < n then
      let j : Nat :=
        if old.length = 0 then
          if i > 0 then start + (utf8.DecodeRune (s.drop start)).2 else start
        else start + (Index (s.drop start) old).toNat
      ReplaceLoop s old new n fuel (i + 1) (j + old.length)
        (t ++ (s.take j).drop start ++ new)
    else t ++ s.drop start

/-- The function `bytes.Replace`: a copy of `s` with the first `n` non-overlapping
instances of `old` replaced by `new`; no limit on the number when `n < 0`. -/
def Replace (s old new : List Nat) (n : Int) : List Nat :=
  let m := if n ≠ 0 then Count s old else 0
  if m = 0 then s else
  let n : Nat := if n < 0 ∨ (m : Int) < n then m else n.toNat
  ReplaceLoop s old new n n 0 0 []

end bytes

/-! ## Package `chat` (`internal/chat`) -/

namespace chat

/-- Nanoseconds in `time.Second`. -/
def Second : Nat := 1000000000

/-- Time allowed to write a message to the peer. -/
def writeWait : Nat := 10 * Second
/-- Time allowed to read the next pong message from the peer. -/
def pongWait : Nat := 60 * Second
/-- Send pings to peer with this period. -/
def pingPeriod : Nat := (pongWait * 9) / 10
/-- Maximum message size allowed from peer. -/
def maxMessageSize : Nat := 512

def newline : List Nat := [0x0A]
def space : List Nat := [0x20]

/-- A `*Client`: the address of a session. -/
structure ClientPtr where
  addr : Nat
  deriving DecidableEq, Repr

/-- The struct `Message` of `internal/chat/message.go`. -/
structure Message where
  Client : ClientPtr
  Author : List Nat
  Body : List Nat
  deriving DecidableEq, Repr

/-- The method `Message.String`: `m.Author + ": " + string(m.Body)`. -/
def Message.String (m : Message) : List Nat :=
  m.Author ++ [0x3A, 0x20] ++ m.Body

/-- State of a Go channel of messages: its capacity, the elements waiting in its
buffer (oldest first, never more than `cap` of them) and whether it has been closed. -/
structure Chan where
  cap : Nat
  buf : List Message
  closed : Bool
  deriving DecidableEq, Repr

/-- The builtin `make(chan Message)` / `make(chan Message, cap)`. -/
def Chan.make (cap : Nat) : Chan := { cap := cap, buf := [], closed := false }

/-- The builtin `len(ch)`: the number of elements queued in the buffer. -/
def Chan.len (ch : Chan) : Nat := ch.buf.length

/-- A send on the channel by another goroutine that does not find the receiver
waiting: the element is queued when the buffer has room, otherwise the channel is
unchanged (the sender blocks, or takes the `default` branch of its `select`; on a closed
channel the sender panics). -/
def Chan.enqueue (ch : Chan) (m : Message) : Chan :=
  if ch.closed then ch
  else if ch.buf.length < ch.cap then { ch with buf := ch.buf ++ [m] }
  else ch

/-- The builtin `close(ch)`. -/
def Chan.close (ch : Chan) : Chan := { ch with closed := true }

/-- The struct `Client`.  `hub` and `conn` are the identities of the hub and of the
websocket connection; `send` is the state of the outbound mailbox. -/
structure Client where
  ID : Nat
  Username : List Nat
  hub : Nat
  conn : Nat
  send : Chan
  deriving DecidableEq, Repr

/-- The method `atomic.Uint64.Add`: the new value, wrapping at `2 ^ 64`. -/
def Uint64Add (v delta : Nat) : Nat := (v + delta) % 2 ^ 64

/-- The method `atomic.Uint64.Load`. -/
def Uint64Load (v : Nat) : Nat := v

/-- The function `newID` on the package variable `counterID`: returns the id and the
new value of `counterID`. -/
def newID (counterID : Nat) : Nat × Nat :=
  let counterID := Uint64Add counterID 1
  (Uint64Load counterID, counterID)

/-- The function `New`: returns the client and the new value of `counterID`.
`Username` is left at its zero value; the mailbox is `make(chan Message)`. -/
def New (hub conn : Nat) (_send : Chan) (counterID : Nat) : Client × Nat :=
  let r := newID counterID
  ({ hub := hub, conn := conn, send := Chan.make 0, ID := r.1, Username := [] }, r.2)

/-- Where a goroutine executing `New(hub, conn, send)` stands: before `counterID.Add(1)`,
between `counterID.Add(1)` and `counterID.Load()`, or returned with its client. -/
inductive NewState where
  | start (hub conn : Nat) (send : Chan)
  | added (hub conn : Nat) (send : Chan)
  | done (c : Client)
  deriving DecidableEq, Repr

/-- The next atomic step of a goroutine executing `New`, on the shared `counterID`:
the new value of `counterID` and the new state of the goroutine. -/
def NewState.step (counterID : Nat) : NewState → Nat × NewState
  | NewState.start hub conn send => (Uint64Add counterID 1, NewState.added hub conn send)
  | NewState.added hub conn _ =>
    (counterID, NewState.done
      { hub := hub, conn := conn, send := Chan.make 0, ID := Uint64Load counterID,
        Username := [] })
  | NewState.done c => (counterID, NewState.done c)

/-- Goroutines executing `New` concurrently (`ServeWs` calls it from the goroutine of each
request): `sched` lists which goroutine takes the next atomic step.  Returns the final
value of `counterID` and the final states. -/
def NewConcurrent : List Nat → Nat → List NewState → Nat × List NewState
  | [], counterID, gs => (counterID, gs)
  | i :: sched, counterID, gs =>
    match gs[i]? with
    | none => NewConcurrent sched counterID gs
    | some g =>
      let r := g.step counterID
      NewConcurrent sched r.1 (gs.set i r.2)

/-- The special case in which the calls of `New` do not overlap: the sessions made by `n`
calls run one after another (the arguments of the `i`-th call given by `args i`), oldest
first, threading `counterID` through the calls. -/
def construct (args : Nat → Nat × Nat × Chan) : Nat → Nat → List Client × Nat
  | 0, counterID => ([], counterID)
  | n + 1, counterID =>
    let r := construct args n counterID
    let a := args n
    let c := New a.1 a.2.1 a.2.2 r.2
    (r.1 ++ [c.1], c.2)

/-- What a call of `conn.ReadMessage` returns: a frame, or an error (with what
`websocket.IsUnexpectedCloseError(err, CloseGoingAway, CloseAbnormalClosure)` says of it). -/
inductive ReadResult where
  | frame (messageType : Nat) (data : List Nat)
  | error (unexpectedClose : Bool)
  deriving DecidableEq, Repr

/-- Observable actions of the two pumps. -/
inductive Event where
  | SetReadLimit (limit : Nat)
  | SetReadDeadline (d : Nat)
  | SetPongHandler
  | SetWriteDeadline (d : Nat)
  | LogError
  | LogData (data : List Nat)
  | MessageReadSend
  | MessageReadRecv
  | Broadcast (m : Message)
  | Unregister (c : ClientPtr)
  | ConnClose
  | WriteClose
  | WritePing
  | Frame (payload : List Nat) (closeErr : Bool)
  | TickerStop
  deriving DecidableEq, Repr

/-- The normalization of line 84 of `client.go`:
`bytes.TrimSpace(bytes.Replace(data, newline, space, -1))`. -/
def normalize (data : List Nat) : List Nat :=
  bytes.TrimSpace (bytes.Replace data newline space (-1))

/-- The `for` loop of `ReadPump` over the successive results of `conn.ReadMessage`.
Returns the events and whether the loop was left (`false`: the pump is still blocked
in `ReadMessage` after the listed results).  On leaving, the deferred function runs. -/
def ReadLoop (self : ClientPtr) (_c : Client) : List ReadResult → List Event × Bool
  | [] => ([], false)
  | ReadResult.error unexpectedClose :: _ =>
    ((if unexpectedClose then [Event.LogError] else []) ++
      [Event.Unregister self, Event.ConnClose], true)
  | ReadResult.frame _ data :: rest =>
    let data := bytes.TrimSpace (bytes.Replace data newline space (-1))
    let message : Message := { Client := self, Author := [], Body := data }
    let r := ReadLoop self _c rest
    ([Event.LogData data, Event.MessageReadSend, Event.MessageReadRecv,
      Event.Broadcast message] ++ r.1, r.2)

/-- The method `Client.ReadPump` of the client `c` at address `self`. -/
def ReadPump (self : ClientPtr) (c : Client) (reads : List ReadResult) : List Event × Bool :=
  let r := ReadLoop self c reads
  ([Event.SetReadLimit maxMessageSize, Event.SetReadDeadline pongWait, Event.SetPongHandler]
    ++ r.1, r.2)

/-- The messages a run submits to the hub's broadcast intake, in order. -/
def broadcasts : List Event → List Message
  | [] => []
  | Event.Broadcast m :: rest => m :: broadcasts rest
  | _ :: rest => broadcasts rest

/-- How an iteration of the `for`/`select` loop of `WritePump` ends: the loop goes
round again, the pump returns, the chosen `select` case was not ready (nothing to
receive), or a receive inside the iteration blocks. -/
inductive Outcome where
  | again
  | returned
  | notReady
  | blocked
  deriving DecidableEq, Repr

/-- A receive `<-c.send`: the oldest buffered element if there is one; otherwise the
element `handoff` of a sender that is ready, if any; otherwise the zero value and
`ok = false` on a closed channel; otherwise the receive blocks (`none`). -/
def Chan.recv (ch : Chan) (handoff : Option Message) : Option ((Message × Bool) × Chan) :=
  match ch.buf with
  | m :: rest => some ((m, true), { ch with buf := rest })
  | [] =>
    if ch.closed then some (({ Client := ⟨0⟩, Author := [], Body := [] }, false), ch)
    else
      match handoff with
      | some m => some ((m, true), ch)
      | none => none

/-- The coalescing loop `for i := 0; i < n; i++` of `WritePump`, run with no other
goroutine touching the mailbox: `w` is what has been written to the frame writer.
`none`: a receive blocks. -/
def coalesce : Nat → Chan → List Nat → Option (Chan × List Nat)
  | 0, ch, w => some (ch, w)
  | n + 1, ch, w =>
    match ch.recv none with
    | none => none
    | some ((message, _), ch1) => coalesce n ch1 (w ++ newline ++ message.Body)

/-- Result of one iteration of the loop of `WritePump`. -/
structure StepResult where
  send : Chan
  events : List Event
  outcome : Outcome
  deriving DecidableEq, Repr

/-- The `case message, ok := <-c.send` branch of `WritePump`: `handoff` is the
element of a sender ready at that instant, `nextWriterErr` and `closeErr` tell whether
`conn.NextWriter` and `w.Close` return an error. -/
def WritePumpMailbox (c : Client) (handoff : Option Message) (nextWriterErr closeErr : Bool) :
    StepResult :=
  match c.send.recv handoff with
  | none => { send := c.send, events := [], outcome := Outcome.notReady }
  | some ((message, ok), ch) =>
    if !ok then
      { send := ch, events := [Event.SetWriteDeadline writeWait, Event.WriteClose],
        outcome := Outcome.returned }
    else if nextWriterErr then
      { send := ch, events := [Event.SetWriteDeadline writeWait], outcome := Outcome.returned }
    else
      let w := message.Author ++ [0x3A, 0x20]
      let w := w ++ message.Body
      let n := ch.len
      match coalesce n ch w with
      | none => { send := ch, events := [Event.SetWriteDeadline writeWait],
                  outcome := Outcome.blocked }
      | some (ch1, w) =>
        { send := ch1, events := [Event.SetWriteDeadline writeWait, Event.Frame w closeErr],
          outcome := if closeErr then Outcome.returned else Outcome.again }

/-- The `case <-ticker.C` branch of `WritePump`. -/
def WritePumpTick (c : Client) (pingErr : Bool) : StepResult :=
  { send := c.send, events := [Event.SetWriteDeadline writeWait, Event.WritePing],
    outcome := if pingErr then Outcome.returned else Outcome.again }

/-- What happens next around a running `WritePump`: another goroutine queues a
message on the mailbox or closes it, or the pump's `select` takes one of its cases. -/
inductive Sched where
  | enqueue (m : Message)
  | close
  | mailbox (handoff : Option Message) (nextWriterErr closeErr : Bool)
  | tick (pingErr : Bool)
  deriving DecidableEq, Repr

/-- The method `Client.WritePump` run along a schedule: the final mailbox and the
events.  When the loop is left the deferred function stops the ticker and closes the
connection. -/
def WritePump (c : Client) : List Sched → Chan × List Event
  | [] => (c.send, [])
  | Sched.enqueue m :: rest => WritePump { c with send := c.send.enqueue m } rest
  | Sched.close :: rest => WritePump { c with send := c.send.close } rest
  | Sched.mailbox handoff nextWriterErr closeErr :: rest =>
    let r := WritePumpMailbox c handoff nextWriterErr closeErr
    match r.outcome with
    | Outcome.again =>
      let t := WritePump { c with send := r.send } rest
      (t.1, r.events ++ t.2)
    | Outcome.returned => (r.send, r.events ++ [Event.TickerStop, Event.ConnClose])
    | Outcome.notReady => WritePump c rest
    | Outcome.blocked => (r.send, r.events)
  | Sched.tick pingErr :: rest =>
    let r := WritePumpTick c pingErr
    match r.outcome with
    | Outcome.again =>
      let t := WritePump { c with send := r.send } rest
      (t.1, r.events ++ t.2)
    | _ => (r.send, r.events ++ [Event.TickerStop, Event.ConnClose])

/-- The payloads of the data frames of a run, in order. -/
def frames : List Event → List (List Nat)
  | [] => []
  | Event.Frame w _ :: rest => w :: frames rest
  | _ :: rest => frames rest

end chat

/-! ## Package `grpc` (`internal/clients/sso/grpc`) -/

namespace ssogrpc

/-- A non-nil Go `error`, with its message. -/
structure Error where
  msg : String
  deriving DecidableEq, Repr

/-- The struct `models.UserAccount`; `UserId` is a `uuid.UUID`, kept in its canonical
text form. -/
structure UserAccount where
  UserId : String
  UserName : String
  deriving DecidableEq, Repr

/-- The zero `uuid.UUID` (`uuid.Nil`). -/
def uuidNil : String := "00000000-0000-0000-0000-000000000000"

/-- The zero value `models.UserAccount{}`. -/
def UserAccount.zero : UserAccount := ⟨uuidNil, ""⟩

/-- The remote identity collaborator `sso.AuthClient` behind `Client.api`: each call
returns a response and an error (`none` for `nil`). -/
structure AuthClient where
  Find : String → (String × String) × Option Error
  IsAdmin : String → Bool × Option Error
  Login : String → String → Int → String × Option Error
  Register : String → String → String × Option Error

/-- The function `uuid.Parse` and the method `UUID.String` of `github.com/google/uuid`;
a UUID is kept in its canonical text form. -/
structure UUIDLib where
  Parse : String → String × Option Error
  String : String → String

/-- The struct `Client`. -/
structure Client where
  api : AuthClient

/-- The result of `fmt.Errorf("%s: %w", op, err)`. -/
def wrap (op : String) (err : Error) : Error := ⟨op ++ ": " ++ err.msg⟩

/-- The method `Client.Find`. -/
def Client.Find (c : Client) (uuid : UUIDLib) (id : String) : UserAccount × Option Error :=
  let op := "grpc.Find"
  let r := c.api.Find (uuid.String id)
  match r.2 with
  | some err => (UserAccount.zero, some (wrap op err))
  | none =>
    let p := uuid.Parse r.1.1
    match p.2 with
    | some err => (UserAccount.zero, some (wrap op err))
    | none => (⟨p.1, r.1.2⟩, none)

/-- The method `Client.Login`. -/
def Client.Login (c : Client) (email password : String) (appID : Int) : String × Option Error :=
  let op := "grpc.Find"
  let r := c.api.Login email password appID
  match r.2 with
  | some err => ("", some (wrap op err))
  | none => (r.1, none)

/-- The method `Client.Register`. -/
def Client.Register (c : Client) (email password : String) : String × Option Error :=
  let r := c.api.Register email password
  match r.2 with
  | some _ => ("", none)
  | none => (r.1, none)

end ssogrpc

/-! ## Package `server` (`internal/server`) -/

namespace server

open ssogrpc (Error UserAccount UUIDLib)

def StatusOK : Nat := 200
def StatusCreated : Nat := 201
def StatusBadRequest : Nat := 400
def StatusUnauthorized : Nat := 401
def StatusInternalServerError : Nat := 500

/-- A value stored under a key of `jwt.MapClaims` (an `interface{}`). -/
inductive ClaimValue where
  | str (s : String)
  | num (n : Int)
  | other
  deriving DecidableEq, Repr

/-- The dynamic type of `Token.Claims`. -/
inductive Claims where
  | MapClaims (m : List (String × ClaimValue))
  | StandardClaims
  deriving DecidableEq, Repr

/-- The struct `jwt.Token`, as far as the handlers read it. -/
structure Token where
  Claims : Claims
  deriving DecidableEq, Repr

/-- An HTTP request, as far as the handlers read it. -/
structure Request where
  Authorization : String
  Body : String
  deriving DecidableEq, Repr

/-- The body of `POST /register` after JSON decoding. -/
structure RegisterRequest where
  Email : String
  Password : String
  Username : String
  deriving DecidableEq, Repr

/-- The library calls of the handlers: `jwt.Parse(token, keyFunc)` with the key
`appSecret` (a `*Token`, `none` for `nil`, and an error), `uuid.Parse`, and
`json.NewDecoder(r.Body).Decode` into the request struct of `Register`. -/
structure Lib where
  jwtParse : String → String → Option Token × Option Error
  uuid : UUIDLib
  decodeRegister : String → RegisterRequest × Option Error

/-- What a handler does to the response and to the rest of the chain. -/
inductive Effect where
  | SlogError (msg : String)
  | LoggerInfo
  | SetHeader (key value : String)
  | WriteHeader (code : Nat)
  | Encode (data : String)
  | Next (user : UserAccount)
  deriving DecidableEq, Repr

/-- A run of handler code: its effects so far and whether it panicked. -/
structure Run where
  effects : List Effect
  panicked : Bool
  deriving DecidableEq, Repr

def Run.done : Run := ⟨[], false⟩
def Run.panic : Run := ⟨[], true⟩

/-- Sequencing: `b` runs after `a` unless `a` panicked. -/
def Run.seq (a b : Run) : Run :=
  if a.panicked then a else ⟨a.effects ++ b.effects, b.panicked⟩

/-- The struct `Server` (router left out) with the package variable `appSecret`.
`logger` is `none` for a nil `*slog.Logger`, otherwise the level of its handler. -/
structure Server where
  logger : Option Int
  sso : ssogrpc.Client
  appID : Int
  appSecret : String

/-- The logger that `newServer` builds from `config.LogLevel`: nil unless the level is
one of the four names of the `switch`. -/
def newLogger (logLevel : String) : Option Int :=
  if logLevel = "error" then some 8
  else if logLevel = "info" then some 0
  else if logLevel = "warn" then some 4
  else if logLevel = "debug" then some (-4)
  else none

/-- The function `newServer` (the router configuration left out). -/
def newServer (logLevel : String) (appID : Int) (appSecret : String) (sso : ssogrpc.Client) :
    Server :=
  { logger := newLogger logLevel, sso := sso, appID := appID, appSecret := appSecret }

/-- The method `Server.respond` with one `data` argument. -/
def Server.respond (_s : Server) (code : Nat) (data : String) : Run :=
  ⟨[Effect.SetHeader "Content-Type" "application/json", Effect.WriteHeader code,
    Effect.Encode data], false⟩

/-- The method `Server.error`: `err.Error()` on a nil `err` is a nil dereference. -/
def Server.error (s : Server) (code : Nat) (err : Option Error) : Run :=
  match err with
  | none => Run.panic
  | some e =>
    Run.seq ⟨[Effect.SlogError ("error: " ++ e.msg)], false⟩ (s.respond code e.msg)

/-- The expression `claims["uid"].(string)`. -/
def uidClaim (m : List (String × ClaimValue)) : String × Bool :=
  match m.lookup "uid" with
  | some (ClaimValue.str v) => (v, true)
  | _ => ("", false)

/-- The middleware `Server.authenticateUser`, applied to the handler `next`. -/
def Server.authenticateUser (s : Server) (lib : Lib) (next : UserAccount → Run) (r : Request) :
    Run :=
  let token := r.Authorization
  let parsed := lib.jwtParse token s.appSecret
  Run.seq (if parsed.2 ≠ none then s.error StatusInternalServerError parsed.2 else Run.done) <|
  match parsed.1 with
  | none => Run.panic
  | some parsedToken =>
    let (claims, ok) := match parsedToken.Claims with
      | Claims.MapClaims m => (m, true)
      | _ => ([], false)
    Run.seq (if !ok then s.error StatusUnauthorized none else Run.done) <|
    let (uuID, ok) := uidClaim claims
    Run.seq (if !ok then s.error StatusInternalServerError none else Run.done) <|
    let parsedUUID := lib.uuid.Parse uuID
    Run.seq (if parsedUUID.2 ≠ none then s.error StatusInternalServerError parsedUUID.2
      else Run.done) <|
    let found := s.sso.Find lib.uuid parsedUUID.1
    Run.seq (if found.2 ≠ none then s.error StatusInternalServerError found.2 else Run.done) <|
    Run.seq ⟨[Effect.Next found.1], false⟩ (next found.1)

/-- The handler returned by `Server.Register`; `s.logger.Info` on a nil logger is a nil
dereference. -/
def Server.Register (s : Server) (lib : Lib) (r : Request) : Run :=
  let req := lib.decodeRegister r.Body
  match req.2 with
  | some err => s.error StatusBadRequest (some err)
  | none =>
    Run.seq (match s.logger with
      | none => Run.panic
      | some _ => ⟨[Effect.LoggerInfo], false⟩) <|
    let res := s.sso.Register req.1.Email req.1.Password
    match res.2 with
    | some err => s.error StatusInternalServerError (some err)
    | none => s.respond StatusCreated res.1

end server

/-! ## Package `config` (`internal/config`) -/

namespace config

/-- The struct `AppConfig`. -/
structure AppConfig where
  AppSecret : String
  AppID : Int
  deriving DecidableEq, Repr

/-- The command line as `flag.Parse` sees it: for each of the three flags the value
given, `none` when the flag is absent. -/
structure Flags where
  app_secret : Option String
  app_id : Option String
  config : Option String
  deriving DecidableEq, Repr

/-- Value of a decimal digit character. -/
def digit (c : Char) : Option Nat :=
  if '0' ≤ c ∧ c ≤ '9' then some (c.toNat - '0'.toNat) else none

/-- The digits loop of `strconv.ParseUint(s, 10, 64)` without the range check. -/
def parseDigits : List Char → Nat → Option Nat
  | [], acc => some acc
  | c :: cs, acc =>
    match digit c with
    | none => none
    | some d => parseDigits cs (acc * 10 + d)

/-- The call `strconv.ParseInt(s, 10, 64)`: the value, or `none` for an error
(syntax or out of range). -/
def ParseInt (s : String) : Option Int :=
  match s.toList with
  | [] => none
  | c :: cs =>
    let neg := c = '-'
    let ds := if c = '+' ∨ c = '-' then cs else c :: cs
    if ds = [] then none else
    match parseDigits ds 0 with
    | none => none
    | some un =>
      if ¬ neg ∧ un ≥ 2 ^ 63 then none
      else if neg ∧ un > 2 ^ 63 then none
      else some (if neg then -(un : Int) else (un : Int))

/-- Default of the flag `-config`. -/
def configDefault : String :=
  "/home/egor/DEV/apartment_building_app/appartament_building_chat/config/config.yaml"

/-- The function `fetchConfigPath`, given the parsed command line and the environment
(`getenv` is `os.Getenv`): the path and the application configuration, or `none`
when it panics. -/
def fetchConfigPath (flags : Flags) (getenv : String → String) : Option (String × AppConfig) :=
  let appSecret := flags.app_secret.getD "chat-secret"
  let appID := flags.app_id.getD "1"
  let res := flags.config.getD configDefault
  match ParseInt appID with
  | none => none
  | some id =>
    let res := if res = "" then getenv "CONFIG_PATH" else res
    some (res, { AppSecret := appSecret, AppID := id })

/-- The function `MustLoad`, with `MustLoadPath` as `load`; `none` when it panics. -/
def MustLoad {Config : Type} (flags : Flags) (getenv : String → String)
    (load : String → Option Config) : Option (Config × AppConfig) :=
  match fetchConfigPath flags getenv with
  | none => none
  | some (configPath, appCfg) =>
    if configPath = "" then none
    else
      match load configPath with
      | none => none
      | some cfg => some (cfg, appCfg)

end config

/-! ## Notions used in the statements -/

namespace chat

/-- The byte string starts with a white-space rune (as `utf8.DecodeRune` reads it). -/
def leadingSpace (v : List Nat) : Bool :=
  !v.isEmpty && unicode.IsSpace (utf8.DecodeRune v).1

/-- The byte string ends with a white-space rune (as `utf8.DecodeLastRune` reads it). -/
def trailingSpace (v : List Nat) : Bool :=
  !v.isEmpty && unicode.IsSpace (utf8.DecodeLastRune v).1

/-- The part of the payload before a newline run as it appears in the body: its newlines
replaced by spaces (line 84) and its leading white space cut off, as `TrimSpace` does on
the left.  Empty exactly when that part holds no rune that is not white space. -/
def normalizeLeft (x : List Nat) : List Nat :=
  bytes.TrimLeftFunc (bytes.Replace x newline space (-1)) unicode.IsSpace

/-- The part of the payload after a newline run as it appears in the body: its newlines
replaced by spaces (line 84) and its trailing white space cut off, as `TrimSpace` does on
the right.  Empty exactly when that part holds no rune that is not white space. -/
def normalizeRight (y : List Nat) : List Nat :=
  bytes.TrimRightFunc (bytes.Replace y newline space (-1)) unicode.IsSpace

/-- Rendering of a queue of messages in one coalesced frame: the sender label of the
first message, `": "`, then the bodies in queue order separated by newlines. -/
def coalesced (msgs : List Message) : List Nat :=
  (msgs.headD { Client := ⟨0⟩, Author := [], Body := [] }).Author ++ [0x3A, 0x20] ++
    newline.intercalate (msgs.map Message.Body)

/-- A session whose display name is `alice`. -/
def aliceSession : Client :=
  { ID := 1, Username := [97, 108, 105, 99, 101], hub := 0, conn := 0, send := Chan.make 0 }

/-- A session with a mailbox of capacity 4. -/
def bufferedSession (msgs : List Message) : Client :=
  { ID := 1, Username := [], hub := 0, conn := 0,
    send := { cap := 4, buf := msgs, closed := false } }

/-- The messages handed to the pump by those mailbox wake-ups of a schedule at which a
sender is ready and the frame writer opens, in order. -/
def handed : List Sched → List Message
  | [] => []
  | Sched.mailbox (some m) false _ :: rest => m :: handed rest
  | _ :: rest => handed rest

def msgHi : Message := { Client := ⟨2⟩, Author := [98, 111, 98], Body := [104, 105] }
def msgYo : Message := { Client := ⟨3⟩, Author := [101, 118, 101], Body := [121, 111] }

end chat

namespace server

/-- A remote collaborator whose `Find` and `Register` fail and whose other calls succeed. -/
def failingApi : ssogrpc.AuthClient :=
  { Find := fun _ => (("", ""), some ⟨"rpc error: code = Unavailable"⟩),
    IsAdmin := fun _ => (false, none),
    Login := fun _ _ _ => ("token", none),
    Register := fun _ _ => ("", some ⟨"rpc error: code = AlreadyExists"⟩) }

/-- A server made by `newServer` with `log_level: info`. -/
def theServer : Server := newServer "info" 1 "chat-secret" ⟨failingApi⟩

/-- Library behaviour on the test credentials: the credential `"garbage"` is malformed
(`jwt.Parse` returns a nil token and an error), the credential `"no-uid"` is a valid
token without a subject claim, any other is a valid token whose `uid` is a well-formed
UUID. -/
def theLib : Lib :=
  { jwtParse := fun token _ =>
      if token = "garbage" then (none, some ⟨"token contains an invalid number of segments"⟩)
      else if token = "no-uid" then (some ⟨Claims.MapClaims [("exp", ClaimValue.num 1)]⟩, none)
      else (some ⟨Claims.MapClaims
        [("uid", ClaimValue.str "123e4567-e89b-12d3-a456-426614174000")]⟩, none),
    uuid := { Parse := fun s => (s, none), String := fun s => s },
    decodeRegister := fun _ => (⟨"a@b.c", "pw", "ann"⟩, none) }

/-- The protected handler behind the middleware: answers `200`. -/
def protectedHandler (s : Server) (_user : ssogrpc.UserAccount) : Run :=
  s.respond StatusOK "secret"

end server

/-! # Theorems -/

/-! ## Lemmas: `unicode/utf8` and `bytes` -/

namespace utf8

theorem first_eq (b : Nat) :
    (b < 0x80 ∧ first b = 0xF0) ∨
    (0x80 ≤ b ∧ first b = 0xF1) ∨
    (0xC2 ≤ b ∧ b ≤ 0xF4 ∧ first b < 0xF0 ∧
      2 ≤ first b &&& 7 ∧ first b &&& 7 ≤ 4 ∧
      0x80 ≤ (acceptRanges (first b >>> 4)).1 ∧ (acceptRanges (first b >>> 4)).2 ≤ 0xBF) := by
  unfold first
  by_cases h1 : b < 0x80
  · left; simp [h1]
  right
  by_cases h2 : b < 0xC2
  · left; simp [h1, h2]; omega
  by_cases hbig : 0xF5 ≤ b
  · left
    have e1 : ¬ b < 0xE0 := by omega
    have e2 : ¬ b = 0xE0 := by omega
    have e3 : ¬ b < 0xED := by omega
    have e4 : ¬ b = 0xED := by omega
    have e5 : ¬ b < 0xF0 := by omega
    have e6 : ¬ b = 0xF0 := by omega
    have e7 : ¬ b < 0xF4 := by omega
    have e8 : ¬ b = 0xF4 := by omega
    refine ⟨by omega, ?_⟩
    simp only [h1, h2, e1, e2, e3, e4, e5, e6, e7, e8, if_false]
  right
  refine ⟨by omega, by omega, ?_⟩
  simp only [h1, h2, if_false]
  split_ifs <;> first | decide | (exfalso; omega)

/-- Unfolding of `DecodeRune` on a multi-byte lead byte. -/
theorem DecodeRune_multi (b0 : Nat) (q : List Nat) (hf : first b0 < 0xF0) (sz : Nat)
    (acc : Nat × Nat) (hsz : first b0 &&& 7 = sz) (hacc : acceptRanges (first b0 >>> 4) = acc) :
    DecodeRune (b0 :: q) =
      if q.length + 1 < sz then (RuneError, 1) else
      if q.getD 0 0 < acc.1 ∨ acc.2 < q.getD 0 0 then (RuneError, 1) else
      if sz ≤ 2 then (((b0 &&& mask2) <<< 6) ||| (q.getD 0 0 &&& maskx), 2) else
      if q.getD 1 0 < locb ∨ hicb < q.getD 1 0 then (RuneError, 1) else
      if sz ≤ 3 then (((b0 &&& mask3) <<< 12) ||| ((q.getD 0 0 &&& maskx) <<< 6)
        ||| (q.getD 1 0 &&& maskx), 3) else
      if q.getD 2 0 < locb ∨ hicb < q.getD 2 0 then (RuneError, 1) else
      (((b0 &&& mask4) <<< 18) ||| ((q.getD 0 0 &&& maskx) <<< 12)
        ||| ((q.getD 1 0 &&& maskx) <<< 6) ||| (q.getD 2 0 &&& maskx), 4) := by
  have hnf : ¬ first b0 ≥ 0xF0 := by omega
  subst hsz hacc
  simp only [DecodeRune, List.length_cons, List.getD_cons_zero, List.getD_cons_succ]
  rw [if_neg (by omega), if_neg hnf]

theorem DecodeRune_cases (p : List Nat) :
    (p = [] ∧ DecodeRune p = (RuneError, 0)) ∨
    (∃ b q, p = b :: q ∧ b < 0x80 ∧ ∀ q1, DecodeRune (b :: q1) = (b, 1)) ∨
    (p ≠ [] ∧ 0x80 ≤ p.headD 0 ∧ DecodeRune p = (RuneError, 1)) ∨
    (∃ b0 b1 q r, p = b0 :: b1 :: q ∧ 0xC2 ≤ b0 ∧ b0 ≤ 0xF4 ∧ 0x80 ≤ b1 ∧ b1 ≤ 0xBF ∧
      ∀ q1, DecodeRune (b0 :: b1 :: q1) = (r, 2)) ∨
    (∃ b0 b1 b2 q r, p = b0 :: b1 :: b2 :: q ∧ 0xC2 ≤ b0 ∧ b0 ≤ 0xF4 ∧ 0x80 ≤ b1 ∧ b1 ≤ 0xBF ∧
      0x80 ≤ b2 ∧ b2 ≤ 0xBF ∧ ∀ q1, DecodeRune (b0 :: b1 :: b2 :: q1) = (r, 3)) ∨
    (∃ b0 b1 b2 b3 q r, p = b0 :: b1 :: b2 :: b3 :: q ∧ 0xC2 ≤ b0 ∧ b0 ≤ 0xF4 ∧
      0x80 ≤ b1 ∧ b1 ≤ 0xBF ∧ 0x80 ≤ b2 ∧ b2 ≤ 0xBF ∧ 0x80 ≤ b3 ∧ b3 ≤ 0xBF ∧
      ∀ q1, DecodeRune (b0 :: b1 :: b2 :: b3 :: q1) = (r, 4)) := by
  rcases p with _ | ⟨b0, q⟩
  · left; exact ⟨rfl, rfl⟩
  right
  rcases first_eq b0 with ⟨h, hf⟩ | ⟨h, hf⟩ | ⟨h1, h2, hf, hs2, hs4, hlo, hhi⟩
  · left
    exact ⟨b0, q, rfl, h, fun q1 => by simp [DecodeRune, hf]⟩
  · right; left
    refine ⟨by simp, by simpa using h, by simp [DecodeRune, hf, RuneError]⟩
  right
  generalize hsz : first b0 &&& 7 = sz at hs2 hs4
  generalize hacc : acceptRanges (first b0 >>> 4) = acc at hlo hhi
  have key := fun q => DecodeRune_multi b0 q hf sz acc hsz hacc
  have hh : 0x80 ≤ (b0 :: q).headD 0 := by simp; omega
  rcases q with _ | ⟨b1, q⟩
  · left
    refine ⟨by simp, hh, ?_⟩
    rw [key, if_pos (by simp; omega)]
  by_cases hb1 : b1 < acc.1 ∨ acc.2 < b1
  · left
    refine ⟨by simp, hh, ?_⟩
    rw [key]
    simp [hb1]
  have hb1a : 0x80 ≤ b1 := by omega
  have hb1b : b1 ≤ 0xBF := by omega
  by_cases hsz2 : sz ≤ 2
  · right; left
    refine ⟨b0, b1, q, ((b0 &&& mask2) <<< 6) ||| (b1 &&& maskx), rfl, h1, h2, hb1a, hb1b, fun q1 => ?_⟩
    rw [key, if_neg (by simp; omega)]
    simp only [List.getD_cons_zero]
    rw [if_neg hb1, if_pos hsz2]
  rcases q with _ | ⟨b2, q⟩
  · left
    refine ⟨by simp, hh, ?_⟩
    rw [key, if_pos (by simp; omega)]
  by_cases hb2 : b2 < locb ∨ hicb < b2
  · left
    refine ⟨by simp, hh, ?_⟩
    rw [key]
    simp [hb1, hsz2, hb2]
  have hb2a : 0x80 ≤ b2 := by simp only [locb, hicb] at hb2; omega
  have hb2b : b2 ≤ 0xBF := by simp only [locb, hicb] at hb2; omega
  by_cases hsz3 : sz ≤ 3
  · right; right; left
    refine ⟨b0, b1, b2, q, ((b0 &&& mask3) <<< 12) ||| ((b1 &&& maskx) <<< 6) ||| (b2 &&& maskx), rfl, h1, h2, hb1a, hb1b, hb2a, hb2b, fun q1 => ?_⟩
    rw [key, if_neg (by simp; omega)]
    simp only [List.getD_cons_zero, List.getD_cons_succ]
    rw [if_neg hb1, if_neg hsz2, if_neg hb2, if_pos hsz3]
  rcases q with _ | ⟨b3, q⟩
  · left
    refine ⟨by simp, hh, ?_⟩
    rw [key, if_pos (by simp; omega)]
  by_cases hb3 : b3 < locb ∨ hicb < b3
  · left
    refine ⟨by simp, hh, ?_⟩
    rw [key]
    simp [hb1, hsz2, hb2, hsz3, hb3]
  have hb3a : 0x80 ≤ b3 := by simp only [locb, hicb] at hb3; omega
  have hb3b : b3 ≤ 0xBF := by simp only [locb, hicb] at hb3; omega
  right; right; right
  refine ⟨b0, b1, b2, b3, q, ((b0 &&& mask4) <<< 18) ||| ((b1 &&& maskx) <<< 12) ||| ((b2 &&& maskx) <<< 6) ||| (b3 &&& maskx), rfl, h1, h2, hb1a, hb1b, hb2a, hb2b, hb3a, hb3b, fun q1 => ?_⟩
  rw [key, if_neg (by simp; omega)]
  simp only [List.getD_cons_zero, List.getD_cons_succ]
  rw [if_neg hb1, if_neg hsz2, if_neg hb2, if_neg hsz3, if_neg hb3]

theorem DecodeRune_size (p : List Nat) (hp : p ≠ []) :
    1 ≤ (DecodeRune p).2 ∧ (DecodeRune p).2 ≤ p.length := by
  rcases DecodeRune_cases p with ⟨h, _⟩ | ⟨b, q, rfl, _, h⟩ | ⟨_, _, h⟩ | ⟨b0, b1, q, r, rfl, _, _, _, _, h⟩ |
    ⟨b0, b1, b2, q, r, rfl, _, _, _, _, _, _, h⟩ | ⟨b0, b1, b2, b3, q, r, rfl, _, _, _, _, _, _, _, _, h⟩
  · exact absurd h hp
  · rw [h]; simp
  · rw [h]; simp; exact Nat.pos_of_ne_zero (by simpa using hp)
  · rw [h]; simp
  · rw [h]; simp
  · rw [h]; simp

/-- Cutting the input after a complete rune does not change what `DecodeRune` returns,
and cutting it inside one yields `(RuneError, 1)`. -/
theorem DecodeRune_append (u q : List Nat) (hu : u ≠ []) :
    DecodeRune u = (RuneError, 1) ∨ DecodeRune (u ++ q) = DecodeRune u := by
  rcases DecodeRune_cases u with ⟨h, _⟩ | ⟨b, q, rfl, _, h⟩ | ⟨_, _, h⟩ | ⟨b0, b1, q, r, rfl, _, _, _, _, h⟩ |
    ⟨b0, b1, b2, q, r, rfl, _, _, _, _, _, _, h⟩ | ⟨b0, b1, b2, b3, q, r, rfl, _, _, _, _, _, _, _, _, h⟩
  · exact absurd h hu
  · right; simp only [List.cons_append]; rw [h, h]
  · left; exact h
  · right; simp only [List.cons_append]; rw [h, h]
  · right; simp only [List.cons_append]; rw [h, h]
  · right; simp only [List.cons_append]; rw [h, h]

/-- A rune of width at least 2 starts with a lead byte and continues with a
continuation byte. -/
theorem DecodeRune_wide (p : List Nat) (h : 2 ≤ (DecodeRune p).2) :
    0xC2 ≤ p.getD 0 0 ∧ 2 ≤ p.length ∧ 0x80 ≤ p.getD 1 0 ∧ p.getD 1 0 ≤ 0xBF := by
  rcases DecodeRune_cases p with ⟨_, h1⟩ | ⟨b, q, rfl, _, h1⟩ | ⟨_, _, h1⟩ |
    ⟨b0, b1, q, r, rfl, _, _, _, _, h1⟩ |
    ⟨b0, b1, b2, q, r, rfl, _, _, _, _, _, _, h1⟩ |
    ⟨b0, b1, b2, b3, q, r, rfl, _, _, _, _, _, _, _, _, h1⟩
  · rw [h1] at h; simp at h
  · rw [h1] at h; simp at h
  · rw [h1] at h; simp at h
  all_goals simp; omega

/-- A rune of width 1 is an ASCII byte or `RuneError`. -/
theorem DecodeRune_narrow (p : List Nat) (hp : p ≠ []) (h : (DecodeRune p).2 = 1) :
    (p.getD 0 0 < 0x80 ∧ (DecodeRune p).1 = p.getD 0 0) ∨
      (0x80 ≤ p.getD 0 0 ∧ (DecodeRune p).1 = RuneError) := by
  rcases DecodeRune_cases p with ⟨h1, _⟩ | ⟨b, q, rfl, _, h1⟩ | ⟨_, h0, h1⟩ |
    ⟨b0, b1, q, r, rfl, _, _, _, _, h1⟩ |
    ⟨b0, b1, b2, q, r, rfl, _, _, _, _, _, _, h1⟩ |
    ⟨b0, b1, b2, b3, q, r, rfl, _, _, _, _, _, _, _, _, h1⟩
  · exact absurd h1 hp
  · left; rw [h1]; simp; assumption
  · right; rw [h1]
    cases p with
    | nil => exact absurd rfl hp
    | cons b q => simpa using h0
  · rw [h1] at h; simp at h
  · rw [h1] at h; simp at h
  · rw [h1] at h; simp at h

theorem DecodeRune_ascii (b : Nat) (q : List Nat) (hb : b < 0x80) :
    DecodeRune (b :: q) = (b, 1) := by
  have hf : first b = 0xF0 := by
    rcases first_eq b with ⟨_, h⟩ | ⟨h, _⟩ | ⟨h, _⟩
    · exact h
    · omega
    · omega
  simp [DecodeRune, hf]

/-- A byte followed by nothing or by a byte that is not a continuation byte decodes
with width 1. -/
theorem DecodeRune_lone (b : Nat) (q : List Nat)
    (hq : q = [] ∨ q.getD 0 0 < 0x80 ∨ 0xBF < q.getD 0 0) : (DecodeRune (b :: q)).2 = 1 := by
  have h1 := DecodeRune_size (b :: q) (by simp)
  by_contra hne
  have h2 := DecodeRune_wide (b :: q) (by omega)
  simp only [List.getD_cons_succ, List.getD_cons_zero, List.length_cons] at h2
  rcases hq with rfl | hq | hq
  · simp at h2
  · omega
  · omega

theorem scanBack_le (p : List Nat) (lim : Int) (fuel : Nat) (start : Int) :
    scanBack p lim fuel start ≤ start := by
  induction fuel generalizing start with
  | zero => simp [scanBack]
  | succ n ih =>
    simp only [scanBack]
    split_ifs
    · exact le_refl _
    · have := ih (start - 1); omega
    · exact le_refl _

/-- What `DecodeLastRune` returns on a non-empty input: the last byte when it is ASCII;
otherwise `(RuneError, 1)`, or the rune that `DecodeRune` reads at an index `start` from
which that rune reaches exactly to the end. -/
theorem DecodeLastRune_cases (p : List Nat) (hp : p ≠ []) :
    (p.getD (p.length - 1) 0 < 0x80 ∧ DecodeLastRune p = (p.getD (p.length - 1) 0, 1)) ∨
    (0x80 ≤ p.getD (p.length - 1) 0 ∧ DecodeLastRune p = (RuneError, 1)) ∨
    (0x80 ≤ p.getD (p.length - 1) 0 ∧ ∃ start : Nat, start < p.length ∧
      DecodeLastRune p = DecodeRune (p.drop start) ∧
      start + (DecodeRune (p.drop start)).2 = p.length) := by
  have hlen : 0 < p.length := List.length_pos.mpr hp
  have hne : ¬ p.length = 0 := by omega
  have htn : ((p.length : Int) - 1).toNat = p.length - 1 := by omega
  unfold DecodeLastRune
  simp only [hne, if_false, htn]
  by_cases hr : p.getD (p.length - 1) 0 < RuneSelf
  · left
    simp only [hr, if_true]
    exact ⟨hr, trivial⟩
  right
  have hr1 : 0x80 ≤ p.getD (p.length - 1) 0 := by simp only [RuneSelf] at hr; omega
  simp only [hr, if_false]
  generalize hlim : (if (p.length : Int) - (UTFMax : Int) < 0 then (0 : Int)
      else (p.length : Int) - (UTFMax : Int)) = lim
  have hsb := scanBack_le p lim UTFMax ((p.length : Int) - 1 - 1)
  generalize scanBack p lim UTFMax ((p.length : Int) - 1 - 1) = sb at hsb
  generalize hs1 : (if sb < 0 then (0 : Int) else sb) = s1
  have h0 : 0 ≤ s1 := by rw [← hs1]; split_ifs <;> omega
  have h1 : s1 < p.length := by rw [← hs1]; split_ifs <;> omega
  have htake : List.take (p.length - s1.toNat) (List.drop s1.toNat p) = List.drop s1.toNat p := by
    apply List.take_of_length_le
    simp
  rw [htake]
  split_ifs with hc
  · left; exact ⟨hr1, rfl⟩
  · right
    refine ⟨hr1, s1.toNat, by omega, rfl, ?_⟩
    push_neg at hc
    omega

theorem DecodeLastRune_size (p : List Nat) (hp : p ≠ []) :
    1 ≤ (DecodeLastRune p).2 ∧ (DecodeLastRune p).2 ≤ p.length := by
  have hlen : 0 < p.length := List.length_pos.mpr hp
  rcases DecodeLastRune_cases p hp with ⟨_, h⟩ | ⟨_, h⟩ | ⟨_, start, hs, h, hsum⟩
  · rw [h]; simp; omega
  · rw [h]; simp; omega
  · rw [h]
    have := DecodeRune_size (p.drop start) (by
      intro hnil
      have := congrArg List.length hnil
      simp at this; omega)
    omega

/-- A last rune of width at least 2 is the rune `DecodeRune` reads at its start. -/
theorem DecodeLastRune_wide (p : List Nat) (h : 2 ≤ (DecodeLastRune p).2) :
    DecodeRune (p.drop (p.length - (DecodeLastRune p).2)) = DecodeLastRune p := by
  have hp : p ≠ [] := by
    rintro rfl
    simp [DecodeLastRune] at h
  rcases DecodeLastRune_cases p hp with ⟨_, h1⟩ | ⟨_, h1⟩ | ⟨_, start, hs, h1, hsum⟩
  · rw [h1] at h; simp at h
  · rw [h1] at h; simp at h
  · have : p.length - (DecodeLastRune p).2 = start := by rw [h1]; omega
    rw [this, h1]

/-- A last rune of width 1 is the last byte, which is then ASCII, or `RuneError`. -/
theorem DecodeLastRune_narrow (p : List Nat) (hp : p ≠ []) (h : (DecodeLastRune p).2 = 1) :
    (p.getD (p.length - 1) 0 < 0x80 ∧ (DecodeLastRune p).1 = p.getD (p.length - 1) 0) ∨
      (0x80 ≤ p.getD (p.length - 1) 0 ∧ (DecodeLastRune p).1 = RuneError) := by
  rcases DecodeLastRune_cases p hp with ⟨h0, h1⟩ | ⟨h0, h1⟩ | ⟨h0, start, hs, h1, hsum⟩
  · left; rw [h1]; exact ⟨h0, rfl⟩
  · right; rw [h1]; exact ⟨h0, rfl⟩
  · right
    refine ⟨h0, ?_⟩
    rw [h1] at h ⊢
    have hst : start = p.length - 1 := by omega
    have hne : p.drop start ≠ [] := by
      intro hnil
      have := congrArg List.length hnil
      simp at this; omega
    rcases DecodeRune_narrow (p.drop start) hne h with ⟨hlt, _⟩ | ⟨_, he⟩
    · exfalso
      have : (p.drop start).getD 0 0 = p.getD (p.length - 1) 0 := by
        rw [hst]; simp
      omega
    · exact he

end utf8

namespace bytes
open utf8 unicode

theorem IsSpace_RuneError : IsSpace RuneError = false := by decide

theorem IsSpace_ascii (c : Nat) (hc : c < 0x80) : IsSpace c = true ↔ asciiSpace c = 1 := by
  have h : c ≤ MaxLatin1 := by simp only [MaxLatin1]; omega
  simp only [IsSpace, h, if_true, asciiSpace]
  simp only [Bool.or_eq_true, decide_eq_true_eq]
  constructor
  · intro h1
    rw [if_pos]
    omega
  · intro h1
    split_ifs at h1 with h2
    omega

theorem drop_ne_nil {α : Type} (s : List α) (i : Nat) (h : i < s.length) : s.drop i ≠ [] := by
  intro hnil
  have := congrArg List.length hnil
  simp at this
  omega

theorem drop_eq_getD_cons (s : List Nat) (i : Nat) (h : i < s.length) :
    s.drop i = s.getD i 0 :: s.drop (i + 1) := by
  rw [List.getD_eq_getElem _ _ h]
  exact List.drop_eq_getElem_cons h

/-- The rune that `indexFunc` examines at `start` is the one `DecodeRune` reads there. -/
theorem rune_at (s : List Nat) (start : Nat) (h : start < s.length) :
    (if s.getD start 0 ≥ RuneSelf then DecodeRune (s.drop start) else (s.getD start 0, 1)) =
      DecodeRune (s.drop start) := by
  split_ifs with h1
  · rfl
  · have hlt : s.getD start 0 < 0x80 := by simp only [RuneSelf] at h1; omega
    rw [drop_eq_getD_cons s start h, DecodeRune_ascii _ _ hlt]

theorem indexFuncAux_spec (s : List Nat) (fuel start : Nat) :
    indexFuncAux s IsSpace false fuel start = -1 ∨
      ∃ i : Nat, start ≤ i ∧ i < s.length ∧ indexFuncAux s IsSpace false fuel start = (i : Int) ∧
        IsSpace (DecodeRune (s.drop i)).1 = false := by
  induction fuel generalizing start with
  | zero => left; rfl
  | succ n ih =>
    simp only [indexFuncAux]
    by_cases h1 : start < s.length
    · rw [if_pos h1, rune_at s start h1]
      by_cases h2 : IsSpace (DecodeRune (s.drop start)).1 = false
      · right
        rw [if_pos h2]
        exact ⟨start, le_refl _, h1, rfl, h2⟩
      · rw [if_neg h2]
        rcases ih (start + (DecodeRune (s.drop start)).2) with h | ⟨i, hi1, hi2, hi3, hi4⟩
        · left; exact h
        · right; exact ⟨i, by omega, hi2, hi3, hi4⟩
    · left; rw [if_neg h1]

theorem TrimLeftFunc_spec (s : List Nat) :
    TrimLeftFunc s IsSpace = [] ∨
      ∃ i : Nat, i < s.length ∧ TrimLeftFunc s IsSpace = s.drop i ∧
        IsSpace (DecodeRune (s.drop i)).1 = false := by
  unfold TrimLeftFunc indexFunc
  rcases indexFuncAux_spec s s.length 0 with h | ⟨i, _, hi2, hi3, hi4⟩
  · left; simp [h]
  · right
    refine ⟨i, hi2, ?_, hi4⟩
    rw [hi3]
    have : ¬ ((i : Int) = -1) := by omega
    simp [this]

/-- The last byte of a non-empty prefix. -/
theorem getD_take_last (s : List Nat) (j : Nat) (h1 : 1 ≤ j) (h2 : j ≤ s.length) :
    (s.take j).getD ((s.take j).length - 1) 0 = s.getD (j - 1) 0 := by
  have hl : (s.take j).length = j := by simp; omega
  rw [hl]
  rw [List.getD_eq_getElem _ _ (by omega), List.getD_eq_getElem _ _ (by omega)]
  simp

theorem take_ne_nil (s : List Nat) (j : Nat) (h1 : 1 ≤ j) (h2 : j ≤ s.length) : s.take j ≠ [] := by
  intro hnil
  have := congrArg List.length hnil
  simp only [List.length_take, List.length_nil] at this
  omega

/-- The rune that `lastIndexFunc` examines below `i` is the one `DecodeLastRune` reads. -/
theorem last_rune_at (s : List Nat) (i : Nat) (h1 : 1 ≤ i) (h2 : i ≤ s.length) :
    (if s.getD (i - 1) 0 ≥ RuneSelf then DecodeLastRune (s.take i) else (s.getD (i - 1) 0, 1)) =
      DecodeLastRune (s.take i) := by
  split_ifs with h
  · rfl
  · have hlt : s.getD (i - 1) 0 < 0x80 := by simp only [RuneSelf] at h; omega
    have hl := getD_take_last s i h1 h2
    rcases DecodeLastRune_cases (s.take i) (take_ne_nil s i h1 h2) with ⟨_, h3⟩ | ⟨h3, _⟩ | ⟨h3, _⟩
    · rw [h3, hl]
    · omega
    · omega

/-- A white-space rune found by `DecodeLastRune` starts at a byte that is not a
continuation byte. -/
theorem space_start (s : List Nat) (i : Nat) (h1 : 1 ≤ i) (h2 : i ≤ s.length)
    (hsp : IsSpace (DecodeLastRune (s.take i)).1 = true) :
    s.getD (i - (DecodeLastRune (s.take i)).2) 0 < 0x80 ∨
      0xBF < s.getD (i - (DecodeLastRune (s.take i)).2) 0 := by
  have hne := take_ne_nil s i h1 h2
  have hl : (s.take i).length = i := by simp; omega
  have hsz := DecodeLastRune_size (s.take i) hne
  rw [hl] at hsz
  by_cases hw : 2 ≤ (DecodeLastRune (s.take i)).2
  · right
    have h3 := DecodeLastRune_wide (s.take i) hw
    rw [← h3] at hw
    have h4 := (DecodeRune_wide _ hw).1
    rw [hl] at h4
    have : ((s.take i).drop (i - (DecodeLastRune (s.take i)).2)).getD 0 0 =
        s.getD (i - (DecodeLastRune (s.take i)).2) 0 := by
      simp
      rw [List.getElem?_take_of_lt (by omega)]
    omega
  · have h1s : (DecodeLastRune (s.take i)).2 = 1 := by omega
    rcases DecodeLastRune_narrow (s.take i) hne h1s with ⟨h5, _⟩ | ⟨_, h5⟩
    · left
      rw [getD_take_last s i h1 h2] at h5
      rw [h1s]
      exact h5
    · rw [h5, IsSpace_RuneError] at hsp
      exact absurd hsp (by simp)

theorem lastIndexFuncAux_spec (s : List Nat) (fuel i : Nat) (hi : i ≤ s.length)
    (hinv : i = s.length ∨ s.getD i 0 < 0x80 ∨ 0xBF < s.getD i 0) :
    lastIndexFuncAux s IsSpace false fuel i = -1 ∨
      ∃ j : Nat, 1 ≤ j ∧ j ≤ i ∧
        lastIndexFuncAux s IsSpace false fuel i =
          ((j - (DecodeLastRune (s.take j)).2 : Nat) : Int) ∧
        IsSpace (DecodeLastRune (s.take j)).1 = false ∧
        (j = s.length ∨ s.getD j 0 < 0x80 ∨ 0xBF < s.getD j 0) := by
  induction fuel generalizing i with
  | zero => left; rfl
  | succ n ih =>
    simp only [lastIndexFuncAux]
    by_cases h1 : i > 0
    · rw [if_pos h1, last_rune_at s i h1 hi]
      by_cases h2 : IsSpace (DecodeLastRune (s.take i)).1 = false
      · right
        rw [if_pos h2]
        exact ⟨i, h1, le_refl _, rfl, h2, hinv⟩
      · rw [if_neg h2]
        have hsp : IsSpace (DecodeLastRune (s.take i)).1 = true := by simpa using h2
        have hst := space_start s i h1 hi hsp
        have hsz := DecodeLastRune_size (s.take i) (take_ne_nil s i h1 hi)
        rcases ih (i - (DecodeLastRune (s.take i)).2) (by omega) (Or.inr hst) with
          h | ⟨j, hj1, hj2, hj3, hj4, hj5⟩
        · left; exact h
        · right; exact ⟨j, hj1, by omega, hj3, hj4, hj5⟩
    · left; rw [if_neg h1]

theorem drop_eq_drop_take_append (s : List Nat) (k j : Nat) (h : k ≤ j) (hj : j ≤ s.length) :
    s.drop k = (s.take j).drop k ++ s.drop j := by
  have h1 : (s.take j ++ s.drop j).drop k = (s.take j).drop k ++ s.drop j :=
    List.drop_append_of_le_length (by simp only [List.length_take]; omega)
  rw [List.take_append_drop] at h1
  exact h1

/-- The rune found by `lastIndexFunc` has the same width read forwards. -/
theorem width_agrees (s : List Nat) (j : Nat) (h1 : 1 ≤ j) (h2 : j ≤ s.length)
    (hinv : j = s.length ∨ s.getD j 0 < 0x80 ∨ 0xBF < s.getD j 0) :
    (DecodeRune (s.drop (j - (DecodeLastRune (s.take j)).2))).2 = (DecodeLastRune (s.take j)).2 := by
  have hne := take_ne_nil s j h1 h2
  have hl : (s.take j).length = j := by simp; omega
  have hsz := DecodeLastRune_size (s.take j) hne
  rw [hl] at hsz
  by_cases hw : 2 ≤ (DecodeLastRune (s.take j)).2
  · have h3 := DecodeLastRune_wide (s.take j) hw
    rw [hl] at h3
    have hsplit : s.drop (j - (DecodeLastRune (s.take j)).2) =
        (s.take j).drop (j - (DecodeLastRune (s.take j)).2) ++ s.drop j :=
      drop_eq_drop_take_append s _ j (by omega) h2
    have hne2 : (s.take j).drop (j - (DecodeLastRune (s.take j)).2) ≠ [] :=
      drop_ne_nil _ _ (by rw [hl]; omega)
    rcases DecodeRune_append _ (s.drop j) hne2 with h4 | h4
    · rw [h3] at h4
      rw [h4] at hw
      simp at hw
    · rw [hsplit, h4, h3]
  · have h1s : (DecodeLastRune (s.take j)).2 = 1 := by omega
    rw [h1s, drop_eq_getD_cons s (j - 1) (by omega)]
    apply DecodeRune_lone
    have hj : j - 1 + 1 = j := by omega
    rw [hj]
    rcases hinv with h | h
    · left; rw [h]; simp
    · right; simpa using h

/-- Given the index found by `lastIndexFunc`, `TrimRightFunc` cuts right after the rune
that starts there. -/
theorem TrimRightFunc_of_lastIndex (s : List Nat) (j : Nat) (hj1 : 1 ≤ j) (hj2 : j ≤ s.length)
    (hj5 : j = s.length ∨ s.getD j 0 < 0x80 ∨ 0xBF < s.getD j 0)
    (hj3 : lastIndexFunc s IsSpace false = ((j - (DecodeLastRune (s.take j)).2 : Nat) : Int)) :
    TrimRightFunc s IsSpace = s.take j := by
  unfold TrimRightFunc
  rw [hj3]
  have hne := take_ne_nil s j hj1 hj2
  have hl : (s.take j).length = j := by simp; omega
  have hsz := DecodeLastRune_size (s.take j) hne
  rw [hl] at hsz
  have hw := width_agrees s j hj1 hj2 hj5
  simp only [Int.toNat_ofNat]
  by_cases hc : s.getD (j - (DecodeLastRune (s.take j)).2) 0 ≥ RuneSelf
  · rw [if_pos ⟨by omega, hc⟩, hw]
    congr 1
    omega
  · have hnc : ¬ (((j - (DecodeLastRune (s.take j)).2 : Nat) : Int) ≥ 0 ∧
        s.getD (j - (DecodeLastRune (s.take j)).2) 0 ≥ RuneSelf) := fun h => hc h.2
    rw [if_neg hnc]
    have hlt : s.getD (j - (DecodeLastRune (s.take j)).2) 0 < 0x80 := by
      simp only [RuneSelf] at hc; omega
    have h1s : (DecodeLastRune (s.take j)).2 = 1 := by
      by_contra hne1
      have hw2 : 2 ≤ (DecodeRune (s.drop (j - (DecodeLastRune (s.take j)).2))).2 := by omega
      have := (DecodeRune_wide _ hw2).1
      simp only [List.getD_eq_getElem?_getD, List.getElem?_drop, Nat.add_zero] at this hlt
      omega
    congr 1
    omega

/-- What `TrimRightFunc` returns: nothing, or a non-empty initial part of its input whose
last rune is not white space. -/
theorem TrimRightFunc_spec (s : List Nat) :
    TrimRightFunc s IsSpace = [] ∨
      ∃ j : Nat, 1 ≤ j ∧ j ≤ s.length ∧ TrimRightFunc s IsSpace = s.take j ∧
        IsSpace (DecodeLastRune (s.take j)).1 = false := by
  rcases lastIndexFuncAux_spec s s.length s.length (le_refl _) (Or.inl rfl) with
    h | ⟨j, hj1, hj2, hj3, hj4, hj5⟩
  · left
    unfold TrimRightFunc lastIndexFunc
    rw [h]
    simp
  · right
    exact ⟨j, hj1, hj2, TrimRightFunc_of_lastIndex s j hj1 hj2 hj5 hj3, hj4⟩

theorem TrimRightFunc_nil : TrimRightFunc [] IsSpace = [] := by decide

/-- What `TrimFunc` returns is a part of its input that neither starts nor ends with a
white-space rune. -/
theorem TrimFunc_spec (u : List Nat) :
    (∀ b ∈ TrimFunc u IsSpace, b ∈ u) ∧
      (TrimFunc u IsSpace = [] ∨
        (IsSpace (DecodeRune (TrimFunc u IsSpace)).1 = false ∧
          IsSpace (DecodeLastRune (TrimFunc u IsSpace)).1 = false)) := by
  unfold TrimFunc
  rcases TrimLeftFunc_spec u with h | ⟨i, hi, h, hsp⟩
  · rw [h, TrimRightFunc_nil]
    simp
  · rw [h]
    rcases TrimRightFunc_spec (u.drop i) with h2 | ⟨j, hj1, hj2, h2, hsp2⟩
    · rw [h2]; simp
    · rw [h2]
      refine ⟨fun b hb => List.mem_of_mem_drop (List.mem_of_mem_take hb), Or.inr ⟨?_, hsp2⟩⟩
      have hne := take_ne_nil (u.drop i) j hj1 hj2
      rcases DecodeRune_append ((u.drop i).take j) ((u.drop i).drop j) hne with h3 | h3
      · rw [h3]; exact IsSpace_RuneError
      · rw [List.take_append_drop] at h3
        rw [← h3]; exact hsp

theorem trimSpaceStart_spec (s : List Nat) (fuel start : Nat) (hf : s.length ≤ start + fuel)
    (hs : start ≤ s.length) :
    (∃ k, trimSpaceStart s fuel start = Scan.ret (TrimFunc (s.drop k) IsSpace)) ∨
      (∃ k, k ≤ s.length ∧ trimSpaceStart s fuel start = Scan.idx k ∧
        (k = s.length ∨ (s.getD k 0 < 0x80 ∧ asciiSpace (s.getD k 0) = 0))) := by
  induction fuel generalizing start with
  | zero =>
    right
    exact ⟨start, hs, rfl, Or.inl (by omega)⟩
  | succ n ih =>
    simp only [trimSpaceStart]
    by_cases h1 : start < s.length
    · rw [if_pos h1]
      by_cases h2 : s.getD start 0 ≥ RuneSelf
      · left; rw [if_pos h2]; exact ⟨start, rfl⟩
      · rw [if_neg h2]
        by_cases h3 : asciiSpace (s.getD start 0) = 0
        · right
          rw [if_pos h3]
          refine ⟨start, hs, rfl, Or.inr ⟨?_, h3⟩⟩
          simp only [RuneSelf] at h2; omega
        · rw [if_neg h3]
          exact ih (start + 1) (by omega) (by omega)
    · right
      rw [if_neg h1]
      exact ⟨start, hs, rfl, Or.inl (by omega)⟩

theorem trimSpaceStop_spec (s : List Nat) (start fuel stop : Nat) (hf : stop ≤ start + fuel)
    (hs : start ≤ stop) (hl : stop ≤ s.length) :
    (∃ k, trimSpaceStop s start fuel stop =
        Scan.ret (TrimFunc ((s.take k).drop start) IsSpace)) ∨
      (∃ k, start ≤ k ∧ k ≤ s.length ∧ trimSpaceStop s start fuel stop = Scan.idx k ∧
        (k = start ∨ (s.getD (k - 1) 0 < 0x80 ∧ asciiSpace (s.getD (k - 1) 0) = 0))) := by
  induction fuel generalizing stop with
  | zero =>
    right
    exact ⟨stop, hs, hl, rfl, Or.inl (by omega)⟩
  | succ n ih =>
    simp only [trimSpaceStop]
    by_cases h1 : stop > start
    · rw [if_pos h1]
      by_cases h2 : s.getD (stop - 1) 0 ≥ RuneSelf
      · left; rw [if_pos h2]; exact ⟨stop, rfl⟩
      · rw [if_neg h2]
        by_cases h3 : asciiSpace (s.getD (stop - 1) 0) = 0
        · right
          rw [if_pos h3]
          refine ⟨stop, hs, hl, rfl, Or.inr ⟨?_, h3⟩⟩
          simp only [RuneSelf] at h2; omega
        · rw [if_neg h3]
          exact ih (stop - 1) (by omega) (by omega) (by omega)
    · right
      rw [if_neg h1]
      exact ⟨stop, hs, hl, rfl, Or.inl (by omega)⟩

theorem not_space_of_asciiSpace (c : Nat) (h1 : c < 0x80) (h2 : asciiSpace c = 0) :
    IsSpace c = false := by
  by_contra h
  have h3 : IsSpace c = true := by simpa using h
  rw [IsSpace_ascii c h1] at h3
  omega

/-- What `TrimSpace` returns is a part of its input that neither starts nor ends with a
white-space rune. -/
theorem TrimSpace_spec (s : List Nat) :
    (∀ b ∈ TrimSpace s, b ∈ s) ∧
      (TrimSpace s = [] ∨
        (IsSpace (DecodeRune (TrimSpace s)).1 = false ∧
          IsSpace (DecodeLastRune (TrimSpace s)).1 = false)) := by
  unfold TrimSpace
  rcases trimSpaceStart_spec s s.length 0 (by omega) (by omega) with ⟨k, h⟩ | ⟨start, hst, h, hstart⟩
  · rw [h]
    have := TrimFunc_spec (s.drop k)
    exact ⟨fun b hb => List.mem_of_mem_drop (this.1 b hb), this.2⟩
  · rw [h]
    simp only
    by_cases hlen : start = s.length
    · have h0 : trimSpaceStop s start s.length s.length = Scan.idx s.length := by
        cases hs : s.length with
        | zero => rfl
        | succ n =>
          simp only [trimSpaceStop]
          rw [if_neg (by omega)]
      rw [h0]
      simp [hlen]
    · have hlt : start < s.length := by omega
      rcases trimSpaceStop_spec s start s.length s.length (by omega) hst (le_refl _) with
        ⟨k, h2⟩ | ⟨stop, hs1, hs2, h2, hstop⟩
      · rw [h2]
        have := TrimFunc_spec ((s.take k).drop start)
        exact ⟨fun b hb => List.mem_of_mem_take (List.mem_of_mem_drop (this.1 b hb)), this.2⟩
      · rw [h2]
        simp only
        by_cases he : start = stop
        · simp [he]
        · rw [if_neg he]
          refine ⟨fun b hb => List.mem_of_mem_take (List.mem_of_mem_drop hb), Or.inr ⟨?_, ?_⟩⟩
          · rcases hstart with h3 | ⟨h3, h4⟩
            · omega
            · have hd : (s.take stop).drop start =
                  s.getD start 0 :: (s.take stop).drop (start + 1) := by
                have := drop_eq_getD_cons (s.take stop) start
                  (by simp only [List.length_take]; omega)
                rw [this]
                congr 1
                simp only [List.getD_eq_getElem?_getD]
                rw [List.getElem?_take_of_lt (by omega)]
              rw [hd, DecodeRune_ascii _ _ h3]
              exact not_space_of_asciiSpace _ h3 h4
          · rcases hstop with h3 | ⟨h3, h4⟩
            · omega
            · have hne : (s.take stop).drop start ≠ [] :=
                drop_ne_nil _ _ (by simp only [List.length_take]; omega)
              have hlast : ((s.take stop).drop start).getD
                  (((s.take stop).drop start).length - 1) 0 = s.getD (stop - 1) 0 := by
                simp only [List.length_drop, List.length_take, List.getD_eq_getElem?_getD,
                  List.getElem?_drop]
                have e1 : start + (min stop s.length - start - 1) = stop - 1 := by omega
                rw [e1, List.getElem?_take_of_lt (by omega)]
              rcases DecodeLastRune_cases _ hne with ⟨_, h5⟩ | ⟨h5, _⟩ | ⟨h5, _⟩
              · rw [h5, hlast]
                exact not_space_of_asciiSpace _ h3 h4
              · rw [hlast] at h5; omega
              · rw [hlast] at h5; omega

theorem HasPrefix_single (b c : Nat) (s : List Nat) :
    HasPrefix (b :: s) [c] = decide (b = c) := by
  simp [HasPrefix]

theorem Index_single_absent (c : Nat) (s : List Nat) (h : c ∉ s) : Index s [c] = -1 := by
  induction s with
  | nil => simp [Index]
  | cons b s ih =>
    have hb : ¬ b = c := fun e => h (by simp [e])
    have hs : c ∉ s := fun e => h (by simp [e])
    simp [Index, HasPrefix_single, hb, ih hs]

theorem Index_single_found (c : Nat) (a rest : List Nat) (h : c ∉ a) :
    Index (a ++ c :: rest) [c] = (a.length : Int) := by
  induction a with
  | nil => simp [Index, HasPrefix_single]
  | cons b a ih =>
    have hb : ¬ b = c := fun e => h (by simp [e])
    have hs : c ∉ a := fun e => h (by simp [e])
    have hne : ¬ ((a.length : Int) = -1) := by omega
    simp [Index, HasPrefix_single, hb, ih hs, hne]

theorem first_split (c : Nat) (s : List Nat) (h : c ∈ s) :
    ∃ a rest, s = a ++ c :: rest ∧ c ∉ a := by
  induction s with
  | nil => simp at h
  | cons b s ih =>
    by_cases hb : b = c
    · exact ⟨[], s, by simp [hb], by simp⟩
    · have hs : c ∈ s := by
        rcases List.mem_cons.mp h with e | e
        · exact absurd e.symm hb
        · exact e
      obtain ⟨a, rest, e, ha⟩ := ih hs
      refine ⟨b :: a, rest, by simp [e], ?_⟩
      intro hm
      rcases List.mem_cons.mp hm with e1 | e1
      · exact hb e1.symm
      · exact ha e1

theorem CountAux_single (c : Nat) (fuel : Nat) (s : List Nat) (n : Nat) (hf : s.length < fuel) :
    CountAux [c] fuel s n = n + s.count c := by
  induction fuel generalizing s n with
  | zero => omega
  | succ k ih =>
    simp only [CountAux]
    by_cases hc : c ∈ s
    · obtain ⟨a, rest, e, ha⟩ := first_split c s hc
      subst e
      rw [Index_single_found c a rest ha]
      have hne : ¬ ((a.length : Int) = -1) := by omega
      rw [if_neg hne]
      have hd : List.drop ((a.length : Int).toNat + [c].length) (a ++ c :: rest) = rest := by
        simp
      rw [hd, ih rest (n + 1) (by simp at hf; omega)]
      simp [List.count_append, List.count_eq_zero_of_not_mem ha]
      omega
    · rw [Index_single_absent c s hc]
      simp [List.count_eq_zero_of_not_mem hc]

theorem map_id_of_absent (c d : Nat) (s : List Nat) (h : c ∉ s) :
    s.map (fun b => if b = c then d else b) = s := by
  induction s with
  | nil => rfl
  | cons b s ih =>
    have hb : ¬ b = c := fun e => h (by simp [e])
    have hs : c ∉ s := fun e => h (by simp [e])
    simp [hb, ih hs]

theorem ReplaceLoop_single (c d : Nat) (s : List Nat) (n fuel i start : Nat) (t : List Nat)
    (hcount : (s.drop start).count c = fuel) (hn : i + fuel = n) :
    ReplaceLoop s [c] [d] n fuel i start t =
      t ++ (s.drop start).map (fun b => if b = c then d else b) := by
  induction fuel generalizing i start t with
  | zero =>
    simp only [ReplaceLoop]
    rw [map_id_of_absent c d _ (List.count_eq_zero.mp hcount)]
  | succ k ih =>
    simp only [ReplaceLoop]
    have hi : i < n := by omega
    rw [if_pos hi]
    have hc : c ∈ s.drop start := by
      apply List.count_pos_iff.mp
      omega
    obtain ⟨a, rest, e, ha⟩ := first_split c _ hc
    have hlen := congrArg List.length e
    simp only [List.length_drop, List.length_append, List.length_cons] at hlen
    rw [e, Index_single_found c a rest ha]
    simp only [List.length_singleton, Nat.succ_ne_zero, if_false, Int.toNat_ofNat, one_ne_zero]
    have hrest : s.drop (start + a.length + 1) = rest := by
      have : s.drop (start + a.length + 1) = (s.drop start).drop (a.length + 1) := by
        rw [List.drop_drop, Nat.add_assoc]
      rw [this, e]
      simp
    have htake : (s.take (start + a.length)).drop start = a := by
      rw [List.drop_take]
      have : start + a.length - start = a.length := by omega
      rw [this, e]
      simp
    have hcr : (s.drop (start + a.length + 1)).count c = k := by
      rw [hrest]
      rw [e] at hcount
      simp [List.count_append, List.count_eq_zero_of_not_mem ha] at hcount
      omega
    rw [ih (i + 1) (start + a.length + 1) _ hcr (by omega), htake, hrest]
    simp [map_id_of_absent c d a ha]

/-- On a one-byte pattern with no limit, `bytes.Replace` replaces every occurrence of the
byte in place. -/
theorem Replace_single (c d : Nat) (s : List Nat) :
    Replace s [c] [d] (-1) = s.map (fun b => if b = c then d else b) := by
  unfold Replace
  have hcnt : Count s [c] = s.count c := by
    simp only [Count, List.length_singleton, one_ne_zero, if_false]
    rw [CountAux_single c _ s 0 (by omega)]
    omega
  simp only [hcnt]
  have hne : ((-1 : Int) ≠ 0) := by decide
  rw [if_pos hne]
  by_cases h0 : s.count c = 0
  · rw [if_pos h0, map_id_of_absent c d s (List.count_eq_zero.mp h0)]
  · rw [if_neg h0]
    have hlt : ((-1 : Int) < 0 ∨ ((s.count c : Nat) : Int) < -1) := Or.inl (by decide)
    rw [if_pos hlt]
    rw [ReplaceLoop_single c d s (s.count c) (s.count c) 0 0 [] (by simp) (by omega)]
    simp

end bytes

namespace chat
open utf8 unicode bytes

theorem normalize_eq (data : List Nat) :
    normalize data = TrimSpace (data.map (fun b => if b = 0x0A then 0x20 else b)) := by
  unfold normalize newline space
  rw [Replace_single]

theorem newline_not_mem_map (data : List Nat) :
    0x0A ∉ data.map (fun b => if b = 0x0A then 0x20 else b) := by
  intro h
  obtain ⟨b, _, hb⟩ := List.mem_map.mp h
  split_ifs at hb with h1
  · omega
  · exact h1 hb

end chat

namespace utf8

/-- The bytes of a rune of width at least 2: a lead byte, then continuation bytes. -/
theorem DecodeRune_wide_bytes (u : List Nat) (h : 2 ≤ (DecodeRune u).2) :
    (DecodeRune u).2 ≤ 4 ∧ (DecodeRune u).2 ≤ u.length ∧ 0xC2 ≤ u.getD 0 0 ∧ u.getD 0 0 ≤ 0xF4 ∧
      ∀ k, 1 ≤ k → k < (DecodeRune u).2 → 0x80 ≤ u.getD k 0 ∧ u.getD k 0 ≤ 0xBF := by
  rcases DecodeRune_cases u with ⟨_, h1⟩ | ⟨b, q, rfl, _, h1⟩ | ⟨_, _, h1⟩ |
    ⟨b0, b1, q, r, rfl, _, _, _, _, h1⟩ |
    ⟨b0, b1, b2, q, r, rfl, _, _, _, _, _, _, h1⟩ |
    ⟨b0, b1, b2, b3, q, r, rfl, _, _, _, _, _, _, _, _, h1⟩
  · rw [h1] at h; simp at h
  · rw [h1] at h; simp at h
  · rw [h1] at h; simp at h
  · rw [h1]
    refine ⟨by simp, by simp, by simpa, by simpa, fun k hk1 hk2 => ?_⟩
    have : k = 1 := by simp at hk2; omega
    subst this
    simp only [List.getD_cons_succ, List.getD_cons_zero]
    omega
  · rw [h1]
    refine ⟨by simp, by simp, by simpa, by simpa, fun k hk1 hk2 => ?_⟩
    have : k = 1 ∨ k = 2 := by simp at hk2; omega
    rcases this with rfl | rfl <;> simp only [List.getD_cons_succ, List.getD_cons_zero] <;> omega
  · rw [h1]
    refine ⟨by simp, by simp, by simpa, by simpa, fun k hk1 hk2 => ?_⟩
    have : k = 1 ∨ k = 2 ∨ k = 3 := by simp at hk2; omega
    rcases this with rfl | rfl | rfl <;>
      simp only [List.getD_cons_succ, List.getD_cons_zero] <;> omega

/-- A rune of width at least 2 depends only on the bytes it spans. -/
theorem DecodeRune_depends (u v : List Nat) (h : 2 ≤ (DecodeRune u).2)
    (he : u.take (DecodeRune u).2 = v.take (DecodeRune u).2) : DecodeRune v = DecodeRune u := by
  rcases DecodeRune_cases u with ⟨_, h1⟩ | ⟨b, q, rfl, _, h1⟩ | ⟨_, _, h1⟩ |
    ⟨b0, b1, q, r, rfl, _, _, _, _, h1⟩ |
    ⟨b0, b1, b2, q, r, rfl, _, _, _, _, _, _, h1⟩ |
    ⟨b0, b1, b2, b3, q, r, rfl, _, _, _, _, _, _, _, _, h1⟩
  · rw [h1] at h; simp at h
  · rw [h1] at h; simp at h
  · rw [h1] at h; simp at h
  · rw [h1] at he ⊢
    rcases v with _ | ⟨x, _ | ⟨y, v⟩⟩ <;> simp at he
    obtain ⟨rfl, rfl⟩ := he
    exact h1 v
  · rw [h1] at he ⊢
    rcases v with _ | ⟨x, _ | ⟨y, _ | ⟨z, v⟩⟩⟩ <;> simp at he
    obtain ⟨rfl, rfl, rfl⟩ := he
    exact h1 v
  · rw [h1] at he ⊢
    rcases v with _ | ⟨x, _ | ⟨y, _ | ⟨z, _ | ⟨w, v⟩⟩⟩⟩ <;> simp at he
    obtain ⟨rfl, rfl, rfl, rfl⟩ := he
    exact h1 v

/-- An ASCII byte after the input does not change what `DecodeRune` returns. -/
theorem DecodeRune_append_ascii (a : List Nat) (c : Nat) (rest : List Nat) (ha : a ≠ [])
    (hc : c < 0x80) : DecodeRune (a ++ c :: rest) = DecodeRune a := by
  by_cases hw : 2 ≤ (DecodeRune (a ++ c :: rest)).2
  · obtain ⟨_, h2, _, _, h5⟩ := DecodeRune_wide_bytes _ hw
    by_cases hl : a.length < (DecodeRune (a ++ c :: rest)).2
    · exfalso
      have h6 := h5 a.length (List.length_pos.mpr ha) hl
      have : (a ++ c :: rest).getD a.length 0 = c := by
        rw [List.getD_eq_getElem?_getD, List.getElem?_append_right (le_refl _)]
        simp
      omega
    · exact (DecodeRune_depends _ a hw (List.take_append_of_le_length (by omega))).symm
  · have hsz := DecodeRune_size (a ++ c :: rest) (by simp)
    have h1 : (DecodeRune (a ++ c :: rest)).2 = 1 := by omega
    by_cases hwa : 2 ≤ (DecodeRune a).2
    · exfalso
      have := DecodeRune_depends a (a ++ c :: rest) hwa
        (List.take_append_of_le_length (DecodeRune_wide_bytes a hwa).2.1).symm
      rw [this] at hw
      exact hw hwa
    · have hsza := DecodeRune_size a ha
      have h1a : (DecodeRune a).2 = 1 := by omega
      have hhd : (a ++ c :: rest).getD 0 0 = a.getD 0 0 := by
        cases a with
        | nil => exact absurd rfl ha
        | cons b a => simp
      rcases DecodeRune_narrow _ (by simp) h1 with ⟨h2, h3⟩ | ⟨h2, h3⟩ <;>
        rcases DecodeRune_narrow a ha h1a with ⟨h4, h5⟩ | ⟨h4, h5⟩
      · exact Prod.ext (by rw [h3, h5, hhd]) (by rw [h1, h1a])
      · omega
      · omega
      · exact Prod.ext (by rw [h3, h5]) (by rw [h1, h1a])

theorem RuneStart_cont (b : Nat) (h1 : 0x80 ≤ b) (h2 : b ≤ 0xBF) : RuneStart b = false := by
  interval_cases b <;> rfl

theorem RuneStart_lead (b : Nat) (h1 : 0xC0 ≤ b) (h2 : b ≤ 0xFF) : RuneStart b = true := by
  interval_cases b <;> rfl

theorem scanBack_found (p : List Nat) (lim : Int) (fuel : Nat) (s t : Int)
    (h1 : lim ≤ t) (h2 : t ≤ s) (h3 : s - t < fuel)
    (h5 : RuneStart (p.getD t.toNat 0) = true)
    (h6 : ∀ k : Int, t < k → k ≤ s → RuneStart (p.getD k.toNat 0) = false) :
    scanBack p lim fuel s = t := by
  induction fuel generalizing s with
  | zero => simp at h3; omega
  | succ n ih =>
    simp only [scanBack]
    have hs : s ≥ lim := by omega
    rw [if_pos hs]
    by_cases he : s = t
    · subst he
      rw [if_pos h5]
    · have hlt : t < s := by omega
      have := h6 s hlt (le_refl _)
      rw [this]
      simp only [Bool.false_eq_true, if_false]
      exact ih (s - 1) (by omega) (by push_cast at h3 ⊢; omega)
        (fun k hk1 hk2 => h6 k hk1 (by omega))

/-- If a rune of width at least 2 starts at `start` and reaches exactly to the end of
`p`, `DecodeLastRune` returns it. -/
theorem DecodeLastRune_complete (p : List Nat) (start : Nat)
    (h2 : 2 ≤ (DecodeRune (p.drop start)).2)
    (hend : start + (DecodeRune (p.drop start)).2 = p.length) :
    DecodeLastRune p = DecodeRune (p.drop start) := by
  obtain ⟨hn4, hnl, hlead1, hlead2, hcont⟩ := DecodeRune_wide_bytes _ h2
  generalize hn : (DecodeRune (p.drop start)).2 = n at *
  have hget : ∀ k, (p.drop start).getD k 0 = p.getD (start + k) 0 := by
    intro k; simp
  rw [hget] at hlead1 hlead2
  simp only [Nat.add_zero] at hlead1 hlead2
  have hne : ¬ p.length = 0 := by omega
  have htn : ((p.length : Int) - 1).toNat = p.length - 1 := by omega
  unfold DecodeLastRune
  simp only [hne, if_false, htn]
  have hlast : ¬ p.getD (p.length - 1) 0 < RuneSelf := by
    have := hcont (n - 1) (by omega) (by omega)
    rw [hget] at this
    have e : start + (n - 1) = p.length - 1 := by omega
    rw [e] at this
    simp only [RuneSelf]; omega
  simp only [hlast, if_false]
  have hlim : (if (p.length : Int) - (UTFMax : Int) < 0 then (0 : Int)
      else (p.length : Int) - (UTFMax : Int)) ≤ (start : Int) := by
    simp only [UTFMax]
    split_ifs <;> omega
  have hsb : scanBack p (if (p.length : Int) - (UTFMax : Int) < 0 then (0 : Int)
      else (p.length : Int) - (UTFMax : Int)) UTFMax ((p.length : Int) - 1 - 1) = (start : Int) := by
    apply scanBack_found _ _ _ _ _ hlim (by omega) (by simp only [UTFMax]; omega)
    · simp only [Int.toNat_ofNat]
      exact RuneStart_lead _ (by omega) (by omega)
    · intro k hk1 hk2
      have := hcont (k.toNat - start) (by omega) (by omega)
      rw [hget] at this
      have e : start + (k.toNat - start) = k.toNat := by omega
      rw [e] at this
      exact RuneStart_cont _ this.1 this.2
  rw [hsb]
  have hs0 : ¬ ((start : Int) < 0) := by omega
  simp only [hs0, if_false, Int.toNat_ofNat]
  have htake : List.take (p.length - start) (List.drop start p) = List.drop start p :=
    List.take_of_length_le (by simp)
  rw [htake]
  have hc : ¬ ((start : Int) + ((DecodeRune (p.drop start)).2 : Int) ≠ (p.length : Int)) := by
    rw [hn]; push_neg; omega
  rw [if_neg hc]

theorem getD_last_append (pre : List Nat) (c : Nat) (b : List Nat) (hb : b ≠ []) :
    (pre ++ c :: b).getD ((pre ++ c :: b).length - 1) 0 = b.getD (b.length - 1) 0 := by
  have hl : 0 < b.length := List.length_pos.mpr hb
  rw [List.getD_eq_getElem?_getD, List.getD_eq_getElem?_getD]
  rw [List.getElem?_append_right (by simp only [List.length_append, List.length_cons]; omega)]
  have e : (pre ++ c :: b).length - 1 - pre.length = (b.length - 1) + 1 := by
    simp only [List.length_append, List.length_cons]; omega
  rw [e, List.getElem?_cons_succ]

theorem drop_append_cons (pre : List Nat) (c : Nat) (b : List Nat) (k : Nat) (hk : k ≤ b.length) :
    (pre ++ c :: b).drop ((pre ++ c :: b).length - k) = b.drop (b.length - k) := by
  have e : (pre ++ c :: b).length - k = pre.length + ((b.length - k) + 1) := by
    simp; omega
  rw [e, List.drop_append, List.drop_succ_cons]

/-- Bytes before an ASCII byte do not change what `DecodeLastRune` returns. -/
theorem DecodeLastRune_append_ascii (pre : List Nat) (c : Nat) (b : List Nat) (hb : b ≠ [])
    (hc : c < 0x80) : DecodeLastRune (pre ++ c :: b) = DecodeLastRune b := by
  have hl : 0 < b.length := List.length_pos.mpr hb
  have hne : pre ++ c :: b ≠ [] := by simp
  have hszb := DecodeLastRune_size b hb
  have hszp := DecodeLastRune_size _ hne
  by_cases hwb : 2 ≤ (DecodeLastRune b).2
  · have h1 := DecodeLastRune_wide b hwb
    have hd := drop_append_cons pre c b _ hszb.2
    have hlen : (pre ++ c :: b).length - (DecodeLastRune b).2 + (DecodeLastRune b).2
        = (pre ++ c :: b).length := by
      simp; omega
    have := DecodeLastRune_complete (pre ++ c :: b) ((pre ++ c :: b).length - (DecodeLastRune b).2)
      (by rw [hd, h1]; exact hwb) (by rw [hd, h1]; exact hlen)
    rw [this, hd, h1]
  · have h1b : (DecodeLastRune b).2 = 1 := by omega
    by_cases hwp : 2 ≤ (DecodeLastRune (pre ++ c :: b)).2
    · exfalso
      have h1 := DecodeLastRune_wide _ hwp
      generalize hn : (DecodeLastRune (pre ++ c :: b)).2 = n at *
      by_cases hnb : n ≤ b.length
      · have hd := drop_append_cons pre c b n hnb
        rw [hd] at h1
        have := DecodeLastRune_complete b (b.length - n) (by rw [h1, hn]; exact hwp)
          (by rw [h1, hn]; omega)
        rw [this, h1, hn] at hwb
        exact hwb hwp
      · have hw2 : 2 ≤ (DecodeRune ((pre ++ c :: b).drop ((pre ++ c :: b).length - n))).2 := by
          rw [h1, hn]; exact hwp
        obtain ⟨_, _, hlead, _, hcont⟩ := DecodeRune_wide_bytes _ hw2
        rw [h1, hn] at hcont
        have hlenp : (pre ++ c :: b).length = pre.length + 1 + b.length := by simp; omega
        have hget : ∀ k, ((pre ++ c :: b).drop ((pre ++ c :: b).length - n)).getD k 0 =
            (pre ++ c :: b).getD ((pre ++ c :: b).length - n + k) 0 := by
          intro k; simp
        have hcat : (pre ++ c :: b).getD pre.length 0 = c := by
          rw [List.getD_eq_getElem?_getD, List.getElem?_append_right (le_refl _)]
          simp
        by_cases hk0 : (pre ++ c :: b).length - n = pre.length
        · rw [hget, Nat.add_zero, hk0, hcat] at hlead
          omega
        · have := hcont (pre.length - ((pre ++ c :: b).length - n)) (by omega) (by omega)
          rw [hget] at this
          have e : (pre ++ c :: b).length - n + (pre.length - ((pre ++ c :: b).length - n))
              = pre.length := by omega
          rw [e, hcat] at this
          omega
    · have h1p : (DecodeLastRune (pre ++ c :: b)).2 = 1 := by omega
      have hlast := getD_last_append pre c b hb
      rcases DecodeLastRune_narrow _ hne h1p with ⟨h2, h3⟩ | ⟨h2, h3⟩ <;>
        rcases DecodeLastRune_narrow b hb h1b with ⟨h4, h5⟩ | ⟨h4, h5⟩
      · exact Prod.ext (by rw [h3, h5, hlast]) (by rw [h1p, h1b])
      · omega
      · omega
      · exact Prod.ext (by rw [h3, h5]) (by rw [h1p, h1b])

end utf8

namespace bytes
open utf8 unicode

/-- `TrimFunc` returns unchanged an input that neither starts nor ends with white space. -/
theorem TrimFunc_id (s : List Nat) (hne : s ≠ []) (h1 : IsSpace (DecodeRune s).1 = false)
    (h2 : IsSpace (DecodeLastRune s).1 = false) : TrimFunc s IsSpace = s := by
  have hl : 0 < s.length := List.length_pos.mpr hne
  obtain ⟨n, hn⟩ : ∃ n, s.length = n + 1 := ⟨s.length - 1, by omega⟩
  have hidx : indexFunc s IsSpace false = 0 := by
    unfold indexFunc
    rw [hn]
    simp only [indexFuncAux]
    rw [if_pos hl, rune_at s 0 hl, List.drop_zero, if_pos h1]
    rfl
  have hleft : TrimLeftFunc s IsSpace = s := by
    unfold TrimLeftFunc
    rw [hidx]
    simp
  have htake : s.take s.length = s := List.take_length s
  have hright : TrimRightFunc s IsSpace = s := by
    have := TrimRightFunc_of_lastIndex s s.length hl (le_refl _) (Or.inl rfl) (by
      unfold lastIndexFunc
      conv_lhs => rw [hn]
      simp only [lastIndexFuncAux]
      rw [← hn, if_pos hl, last_rune_at s s.length hl (le_refl _), if_pos (by rw [htake]; exact h2)])
    rw [this, htake]
  unfold TrimFunc
  rw [hleft, hright]

theorem asciiSpace_of_not_space (c : Nat) (h1 : c < 0x80) (h2 : IsSpace c = false) :
    asciiSpace c = 0 := by
  by_contra h
  have h3 : asciiSpace c = 1 := by
    unfold asciiSpace at h ⊢
    split_ifs at h ⊢ with h4
    · rfl
    · exact absurd rfl h
  rw [← IsSpace_ascii c h1] at h3
  rw [h3] at h2
  exact absurd h2 (by simp)

/-- `TrimSpace` returns unchanged an input that neither starts nor ends with white space. -/
theorem TrimSpace_id (s : List Nat) (hne : s ≠ []) (h1 : IsSpace (DecodeRune s).1 = false)
    (h2 : IsSpace (DecodeLastRune s).1 = false) : TrimSpace s = s := by
  have hl : 0 < s.length := List.length_pos.mpr hne
  obtain ⟨n, hn⟩ : ∃ n, s.length = n + 1 := ⟨s.length - 1, by omega⟩
  have hid := TrimFunc_id s hne h1 h2
  have htake : s.take s.length = s := List.take_length s
  unfold TrimSpace
  have hstart : trimSpaceStart s s.length 0 = Scan.ret s ∨
      trimSpaceStart s s.length 0 = Scan.idx 0 := by
    rw [hn]
    simp only [trimSpaceStart]
    rw [if_pos (by omega)]
    by_cases hc : s.getD 0 0 ≥ RuneSelf
    · left; rw [if_pos hc, List.drop_zero, hid]
    · right
      rw [if_neg hc]
      have hlt : s.getD 0 0 < 0x80 := by simp only [RuneSelf] at hc; omega
      have hd := drop_eq_getD_cons s 0 hl
      rw [List.drop_zero] at hd
      rw [hd, DecodeRune_ascii _ _ hlt] at h1
      rw [if_pos (asciiSpace_of_not_space _ hlt h1)]
  rcases hstart with h | h
  · rw [h]
  · rw [h]
    simp only
    have hstop : trimSpaceStop s 0 s.length s.length = Scan.ret s ∨
        trimSpaceStop s 0 s.length s.length = Scan.idx s.length := by
      conv => enter [1, 1, 3]; rw [hn]
      conv => enter [2, 1, 3]; rw [hn]
      simp only [trimSpaceStop]
      rw [if_pos (by omega)]
      by_cases hc : s.getD (s.length - 1) 0 ≥ RuneSelf
      · left; rw [if_pos hc, htake, List.drop_zero, hid]
      · right
        rw [if_neg hc]
        have hlt : s.getD (s.length - 1) 0 < 0x80 := by simp only [RuneSelf] at hc; omega
        rcases DecodeLastRune_cases s hne with ⟨_, h5⟩ | ⟨h5, _⟩ | ⟨h5, _⟩
        · rw [h5] at h2
          rw [if_pos (asciiSpace_of_not_space _ hlt h2)]
        · omega
        · omega
    rcases hstop with h3 | h3
    · rw [h3]
    · rw [h3]
      simp only
      rw [if_neg (by omega), htake, List.drop_zero]

end bytes

namespace bytes
open utf8 unicode

theorem drop_append_left (t r : List Nat) (n : Nat) (h : n ≤ t.length) :
    (t ++ r).drop n = t.drop n ++ r :=
  List.drop_append_of_le_length h

theorem getD_append_left (t r : List Nat) (n : Nat) (h : n < t.length) :
    (t ++ r).getD n 0 = t.getD n 0 := by
  rw [List.getD_eq_getElem?_getD, List.getD_eq_getElem?_getD, List.getElem?_append_left h]

/-- Bytes after an ASCII byte do not change the index `indexFunc` finds before it. -/
theorem indexFuncAux_append_ascii (t : List Nat) (c : Nat) (r : List Nat) (hc : c < 0x80)
    (fuel start i : Nat) (h : indexFuncAux t IsSpace false fuel start = (i : Int)) :
    ∀ fuel1, fuel ≤ fuel1 → indexFuncAux (t ++ c :: r) IsSpace false fuel1 start = (i : Int) := by
  induction fuel generalizing start with
  | zero => simp only [indexFuncAux] at h; omega
  | succ n ih =>
    intro fuel1 hf
    obtain ⟨m, rfl⟩ : ∃ m, fuel1 = m + 1 := ⟨fuel1 - 1, by omega⟩
    simp only [indexFuncAux] at h ⊢
    by_cases h1 : start < t.length
    · have h2 : start < (t ++ c :: r).length := by simp; omega
      rw [if_pos h1, rune_at t start h1] at h
      rw [if_pos h2, rune_at _ start h2, drop_append_left t _ start (by omega),
        DecodeRune_append_ascii _ c r (drop_ne_nil t start h1) hc]
      by_cases h3 : IsSpace (DecodeRune (t.drop start)).1 = false
      · rw [if_pos h3] at h ⊢
        exact h
      · rw [if_neg h3] at h ⊢
        exact ih _ h m (by omega)
    · rw [if_neg h1] at h
      omega

theorem TrimLeftFunc_append_ascii (t : List Nat) (c : Nat) (r : List Nat) (hc : c < 0x80)
    (ht : TrimLeftFunc t IsSpace ≠ []) :
    TrimLeftFunc (t ++ c :: r) IsSpace = TrimLeftFunc t IsSpace ++ c :: r := by
  unfold TrimLeftFunc indexFunc at ht ⊢
  rcases indexFuncAux_spec t t.length 0 with h | ⟨i, _, hi2, hi3, _⟩
  · rw [h] at ht; simp at ht
  · have h2 := indexFuncAux_append_ascii t c r hc t.length 0 i hi3 (t ++ c :: r).length
      (by simp)
    rw [hi3, h2]
    have : ¬ ((i : Int) = -1) := by omega
    simp only [this, if_false, Int.toNat_ofNat]
    exact drop_append_left t _ i (by omega)

theorem take_append_cons (l : List Nat) (c : Nat) (t : List Nat) (i : Nat) :
    (l ++ c :: t).take (l.length + 1 + i) = l ++ c :: t.take i := by
  have e : l.length + 1 + i = l.length + (i + 1) := by omega
  rw [e, List.take_append, List.take_succ_cons]

/-- Bytes before an ASCII byte only shift the index `lastIndexFunc` finds after it. -/
theorem lastIndexFuncAux_append_ascii (l : List Nat) (c : Nat) (t : List Nat) (hc : c < 0x80)
    (fuel i j : Nat) (hi : i ≤ t.length)
    (h : lastIndexFuncAux t IsSpace false fuel i = (j : Int)) :
    ∀ fuel1, fuel ≤ fuel1 →
      lastIndexFuncAux (l ++ c :: t) IsSpace false fuel1 (l.length + 1 + i) =
        ((l.length + 1 + j : Nat) : Int) := by
  induction fuel generalizing i with
  | zero => simp only [lastIndexFuncAux] at h; omega
  | succ n ih =>
    intro fuel1 hf
    obtain ⟨m, rfl⟩ : ∃ m, fuel1 = m + 1 := ⟨fuel1 - 1, by omega⟩
    simp only [lastIndexFuncAux] at h ⊢
    by_cases h1 : i > 0
    · have h2 : l.length + 1 + i > 0 := by omega
      have hlen : l.length + 1 + i ≤ (l ++ c :: t).length := by simp; omega
      have htake := take_append_cons l c t i
      rw [if_pos h1, last_rune_at t i h1 hi] at h
      rw [if_pos h2, last_rune_at _ _ h2 hlen, htake,
        DecodeLastRune_append_ascii l c _ (take_ne_nil t i h1 hi) hc]
      have hsz := DecodeLastRune_size (t.take i) (take_ne_nil t i h1 hi)
      have hl : (t.take i).length = i := by simp; omega
      rw [hl] at hsz
      have e : l.length + 1 + i - (DecodeLastRune (t.take i)).2 =
          l.length + 1 + (i - (DecodeLastRune (t.take i)).2) := by omega
      rw [e]
      by_cases h3 : IsSpace (DecodeLastRune (t.take i)).1 = false
      · rw [if_pos h3] at h ⊢
        have : i - (DecodeLastRune (t.take i)).2 = j := by omega
        rw [this]
      · rw [if_neg h3] at h ⊢
        exact ih _ (by omega) h m (by omega)
    · rw [if_neg h1] at h
      omega

theorem TrimRightFunc_ne_nil (t : List Nat) (ht : TrimRightFunc t IsSpace ≠ []) :
    ∃ j : Nat, 1 ≤ j ∧ j ≤ t.length ∧ TrimRightFunc t IsSpace = t.take j ∧
      lastIndexFunc t IsSpace false = ((j - (DecodeLastRune (t.take j)).2 : Nat) : Int) ∧
      (j = t.length ∨ t.getD j 0 < 0x80 ∨ 0xBF < t.getD j 0) := by
  rcases lastIndexFuncAux_spec t t.length t.length (le_refl _) (Or.inl rfl) with
    h | ⟨j, hj1, hj2, hj3, _, hj5⟩
  · exfalso
    apply ht
    unfold TrimRightFunc lastIndexFunc
    rw [h]
    simp
  · exact ⟨j, hj1, hj2, TrimRightFunc_of_lastIndex t j hj1 hj2 hj5 hj3, hj3, hj5⟩

theorem TrimRightFunc_append_ascii (l : List Nat) (c : Nat) (t : List Nat) (hc : c < 0x80)
    (ht : TrimRightFunc t IsSpace ≠ []) :
    TrimRightFunc (l ++ c :: t) IsSpace = l ++ c :: TrimRightFunc t IsSpace := by
  obtain ⟨j, hj1, hj2, hj3, hj4, hj5⟩ := TrimRightFunc_ne_nil t ht
  have hsz := DecodeLastRune_size (t.take j) (take_ne_nil t j hj1 hj2)
  have hl : (t.take j).length = j := by simp; omega
  rw [hl] at hsz
  have htake := take_append_cons l c t j
  have hlen : (l ++ c :: t).length = l.length + 1 + t.length := by simp; omega
  have hidx : lastIndexFunc (l ++ c :: t) IsSpace false =
      ((l.length + 1 + j - (DecodeLastRune ((l ++ c :: t).take (l.length + 1 + j))).2 : Nat) : Int) := by
    unfold lastIndexFunc at hj4 ⊢
    rw [htake, DecodeLastRune_append_ascii l c _ (take_ne_nil t j hj1 hj2) hc]
    have := lastIndexFuncAux_append_ascii l c t hc t.length t.length _ (le_refl _) hj4
      (l.length + 1 + t.length) (by omega)
    rw [hlen, this]
    congr 1
    omega
  have hinv : l.length + 1 + j = (l ++ c :: t).length ∨
      (l ++ c :: t).getD (l.length + 1 + j) 0 < 0x80 ∨
      0xBF < (l ++ c :: t).getD (l.length + 1 + j) 0 := by
    have hg : (l ++ c :: t).getD (l.length + 1 + j) 0 = t.getD j 0 := by
      rw [List.getD_eq_getElem?_getD, List.getD_eq_getElem?_getD,
        List.getElem?_append_right (by omega)]
      have : l.length + 1 + j - l.length = j + 1 := by omega
      rw [this, List.getElem?_cons_succ]
    rcases hj5 with h | h
    · left; rw [hlen, h]
    · right; rw [hg]; exact h
  rw [TrimRightFunc_of_lastIndex _ (l.length + 1 + j) (by omega) (by rw [hlen]; omega) hinv hidx,
    htake, hj3]

theorem asciiSpace_lt (b : Nat) (h : asciiSpace b ≠ 0) : b < 0x80 ∧ IsSpace b = true := by
  have h1 : asciiSpace b = 1 := by
    unfold asciiSpace at h ⊢
    split_ifs at h ⊢ with h2
    · rfl
    · exact absurd rfl h
  have hlt : b < 0x80 := by
    unfold asciiSpace at h1
    split_ifs at h1 with h2
    omega
  exact ⟨hlt, (IsSpace_ascii b hlt).mpr h1⟩

/-- Dropping the first byte shifts the index `indexFunc` finds by one. -/
theorem indexFuncAux_cons (b : Nat) (s : List Nat) (fuel start : Nat) :
    indexFuncAux (b :: s) IsSpace false fuel (start + 1) =
      if indexFuncAux s IsSpace false fuel start = -1 then -1
      else indexFuncAux s IsSpace false fuel start + 1 := by
  induction fuel generalizing start with
  | zero => simp [indexFuncAux]
  | succ n ih =>
    simp only [indexFuncAux]
    by_cases h1 : start < s.length
    · have h2 : start + 1 < (b :: s).length := by simp; omega
      rw [if_pos h1, if_pos h2, rune_at s start h1, rune_at _ _ h2, List.drop_succ_cons]
      by_cases h3 : IsSpace (DecodeRune (s.drop start)).1 = false
      · rw [if_pos h3, if_pos h3]
        have : ¬ ((start : Int) = -1) := by omega
        rw [if_neg this]
        push_cast
        rfl
      · rw [if_neg h3, if_neg h3]
        have e : start + 1 + (DecodeRune (s.drop start)).2 =
            start + (DecodeRune (s.drop start)).2 + 1 := by omega
        rw [e, ih]
    · have h2 : ¬ start + 1 < (b :: s).length := by simp; omega
      rw [if_neg h1, if_neg h2]
      simp

theorem TrimLeftFunc_cons_space (b : Nat) (s : List Nat) (hb : asciiSpace b ≠ 0) :
    TrimLeftFunc (b :: s) IsSpace = TrimLeftFunc s IsSpace := by
  obtain ⟨hlt, hsp⟩ := asciiSpace_lt b hb
  have hidx : indexFunc (b :: s) IsSpace false =
      if indexFunc s IsSpace false = -1 then -1 else indexFunc s IsSpace false + 1 := by
    unfold indexFunc
    simp only [List.length_cons, indexFuncAux]
    rw [if_pos (by omega), rune_at (b :: s) 0 (by simp), List.drop_zero,
      DecodeRune_ascii b s hlt]
    have : ¬ (IsSpace (b, 1).1 = false) := by simp [hsp]
    rw [if_neg this]
    exact indexFuncAux_cons b s s.length 0
  unfold TrimLeftFunc
  rw [hidx]
  rcases indexFuncAux_spec s s.length 0 with h | ⟨i, _, _, hi3, _⟩
  · have h0 : indexFunc s IsSpace false = -1 := h
    simp [h0]
  · have h0 : indexFunc s IsSpace false = (i : Int) := hi3
    have n1 : ¬ ((i : Int) = -1) := by omega
    have n2 : ¬ ((i : Int) + 1 = -1) := by omega
    rw [h0]
    simp only [n1, n2, if_false]
    have : ((i : Int) + 1).toNat = i + 1 := by omega
    rw [this, List.drop_succ_cons, Int.toNat_ofNat]

/-- `lastIndexFunc` below `i` reads only the first `i` bytes. -/
theorem lastIndexFuncAux_append (s t : List Nat) (fuel i : Nat) (hi : i ≤ s.length) :
    lastIndexFuncAux (s ++ t) IsSpace false fuel i = lastIndexFuncAux s IsSpace false fuel i := by
  induction fuel generalizing i with
  | zero => simp [lastIndexFuncAux]
  | succ n ih =>
    simp only [lastIndexFuncAux]
    by_cases h1 : i > 0
    · rw [if_pos h1, if_pos h1, getD_append_left s t (i - 1) (by omega),
        List.take_append_of_le_length hi]
      split_ifs <;> first | rfl | exact ih _ (by omega)
    · rw [if_neg h1, if_neg h1]

theorem TrimRightFunc_snoc_space (s : List Nat) (b : Nat) (hb : asciiSpace b ≠ 0) :
    TrimRightFunc (s ++ [b]) IsSpace = TrimRightFunc s IsSpace := by
  obtain ⟨hlt, hsp⟩ := asciiSpace_lt b hb
  have hidx : lastIndexFunc (s ++ [b]) IsSpace false = lastIndexFunc s IsSpace false := by
    unfold lastIndexFunc
    simp only [List.length_append, List.length_singleton, lastIndexFuncAux]
    have hg : (s ++ [b]).getD (s.length + 1 - 1) 0 = b := by
      rw [List.getD_eq_getElem?_getD, List.getElem?_append_right (by omega)]
      simp
    rw [if_pos (by omega), hg]
    have h1 : ¬ (b ≥ RuneSelf) := by simp only [RuneSelf]; omega
    simp only [h1, if_false]
    have : ¬ (IsSpace b = false) := by simp [hsp]
    rw [if_neg this]
    exact lastIndexFuncAux_append s [b] s.length s.length (le_refl _)
  unfold TrimRightFunc
  rw [hidx]
  rcases lastIndexFuncAux_spec s s.length s.length (le_refl _) (Or.inl rfl) with
    h | ⟨j, hj1, hj2, hj3, _, _⟩
  · have h0 : lastIndexFunc s IsSpace false = -1 := h
    rw [h0]
    simp
  · have h0 : lastIndexFunc s IsSpace false =
        ((j - (DecodeLastRune (s.take j)).2 : Nat) : Int) := hj3
    have hsz := DecodeLastRune_size (s.take j) (take_ne_nil s j hj1 hj2)
    have hl : (s.take j).length = j := by simp; omega
    rw [hl] at hsz
    rw [h0]
    generalize hi : j - (DecodeLastRune (s.take j)).2 = i
    have hil : i < s.length := by omega
    simp only [Int.toNat_ofNat]
    rw [getD_append_left s [b] i hil, drop_append_left s [b] i (by omega),
      DecodeRune_append_ascii _ b [] (drop_ne_nil s i hil) hlt]
    have hw := DecodeRune_size (s.drop i) (drop_ne_nil s i hil)
    simp only [List.length_drop] at hw
    split_ifs with h3
    · have : ((i : Int) + ((DecodeRune (s.drop i)).2 : Int)).toNat =
          i + (DecodeRune (s.drop i)).2 := by omega
      rw [this]
      exact List.take_append_of_le_length (by omega)
    · have : ((i : Int) + 1).toNat = i + 1 := by omega
      rw [this]
      exact List.take_append_of_le_length (by omega)

theorem TrimLeftFunc_id (s : List Nat) (hne : s ≠ []) (h1 : IsSpace (DecodeRune s).1 = false) :
    TrimLeftFunc s IsSpace = s := by
  have hl : 0 < s.length := List.length_pos.mpr hne
  obtain ⟨n, hn⟩ : ∃ n, s.length = n + 1 := ⟨s.length - 1, by omega⟩
  have hidx : indexFunc s IsSpace false = 0 := by
    unfold indexFunc
    rw [hn]
    simp only [indexFuncAux]
    rw [if_pos hl, rune_at s 0 hl, List.drop_zero, if_pos h1]
    rfl
  unfold TrimLeftFunc
  rw [hidx]
  simp

theorem TrimRightFunc_id (s : List Nat) (hne : s ≠ [])
    (h2 : IsSpace (DecodeLastRune s).1 = false) : TrimRightFunc s IsSpace = s := by
  have hl : 0 < s.length := List.length_pos.mpr hne
  obtain ⟨n, hn⟩ : ∃ n, s.length = n + 1 := ⟨s.length - 1, by omega⟩
  have htake : s.take s.length = s := List.take_length s
  have := TrimRightFunc_of_lastIndex s s.length hl (le_refl _) (Or.inl rfl) (by
    unfold lastIndexFunc
    conv_lhs => rw [hn]
    simp only [lastIndexFuncAux]
    rw [← hn, if_pos hl, last_rune_at s s.length hl (le_refl _), if_pos (by rw [htake]; exact h2)])
  rw [this, htake]

theorem TrimFunc_nil : TrimFunc [] IsSpace = [] := by decide

theorem slice_first (s : List Nat) (start stop : Nat) (h1 : start < stop) (h2 : stop ≤ s.length) :
    (s.take stop).drop start = s.getD start 0 :: (s.take stop).drop (start + 1) := by
  have := drop_eq_getD_cons (s.take stop) start (by simp only [List.length_take]; omega)
  rw [this]
  congr 1
  simp only [List.getD_eq_getElem?_getD]
  rw [List.getElem?_take_of_lt (by omega)]

theorem slice_snoc (s : List Nat) (start stop : Nat) (h1 : start < stop) (h2 : stop ≤ s.length) :
    (s.take stop).drop start = (s.take (stop - 1)).drop start ++ [s.getD (stop - 1) 0] := by
  have e : s.take stop = s.take (stop - 1) ++ [s.getD (stop - 1) 0] := by
    have h3 : stop - 1 < s.length := by omega
    have := List.take_succ (l := s) (n := stop - 1)
    have e2 : stop - 1 + 1 = stop := by omega
    rw [e2] at this
    rw [this, List.getD_eq_getElem?_getD, List.getElem?_eq_getElem h3]
    simp
  rw [e]
  exact List.drop_append_of_le_length (by simp only [List.length_take]; omega)

theorem slice_ne_nil (s : List Nat) (start stop : Nat) (h1 : start < stop) (h2 : stop ≤ s.length) :
    (s.take stop).drop start ≠ [] :=
  drop_ne_nil _ _ (by simp only [List.length_take]; omega)

/-- A slice that starts at an ASCII byte that is not white space is kept by `TrimLeftFunc`. -/
theorem TrimLeftFunc_slice (s : List Nat) (start stop : Nat) (h1 : start < stop)
    (h2 : stop ≤ s.length) (h3 : s.getD start 0 < 0x80) (h4 : asciiSpace (s.getD start 0) = 0) :
    TrimLeftFunc ((s.take stop).drop start) IsSpace = (s.take stop).drop start := by
  apply TrimLeftFunc_id _ (slice_ne_nil s start stop h1 h2)
  rw [slice_first s start stop h1 h2, DecodeRune_ascii _ _ h3]
  exact not_space_of_asciiSpace _ h3 h4

theorem trimSpaceStop_eq (s : List Nat) (start fuel stop : Nat) (hf : stop ≤ start + fuel)
    (hs : start < stop) (hl : stop ≤ s.length)
    (h3 : s.getD start 0 < 0x80) (h4 : asciiSpace (s.getD start 0) = 0) :
    (∀ out, trimSpaceStop s start fuel stop = Scan.ret out →
        out = TrimFunc ((s.take stop).drop start) IsSpace) ∧
      (∀ k, trimSpaceStop s start fuel stop = Scan.idx k →
        (if start = k then [] else (s.take k).drop start) =
          TrimFunc ((s.take stop).drop start) IsSpace) := by
  induction fuel generalizing stop with
  | zero => omega
  | succ n ih =>
    simp only [trimSpaceStop]
    rw [if_pos hs]
    by_cases h5 : s.getD (stop - 1) 0 ≥ RuneSelf
    · rw [if_pos h5]
      refine ⟨fun out h => ?_, fun k h => ?_⟩
      · cases h; rfl
      · cases h
    · rw [if_neg h5]
      have hlt : s.getD (stop - 1) 0 < 0x80 := by simp only [RuneSelf] at h5; omega
      by_cases h6 : asciiSpace (s.getD (stop - 1) 0) = 0
      · rw [if_pos h6]
        refine ⟨fun out h => ?_, fun k h => ?_⟩
        · cases h
        · cases h
          rw [if_neg (by omega)]
          unfold TrimFunc
          rw [TrimLeftFunc_slice s start stop hs hl h3 h4]
          symm
          apply TrimRightFunc_id _ (slice_ne_nil s start stop hs hl)
          have hne := slice_ne_nil s start stop hs hl
          have hlast : ((s.take stop).drop start).getD
              (((s.take stop).drop start).length - 1) 0 = s.getD (stop - 1) 0 := by
            simp only [List.length_drop, List.length_take, List.getD_eq_getElem?_getD,
              List.getElem?_drop]
            have e1 : start + (min stop s.length - start - 1) = stop - 1 := by omega
            rw [e1, List.getElem?_take_of_lt (by omega)]
          rcases DecodeLastRune_cases _ hne with ⟨_, h7⟩ | ⟨h7, _⟩ | ⟨h7, _⟩
          · rw [h7, hlast]
            exact not_space_of_asciiSpace _ hlt h6
          · rw [hlast] at h7; omega
          · rw [hlast] at h7; omega
      · rw [if_neg h6]
        have hgt : start < stop - 1 := by
          by_contra hc
          have : stop - 1 = start := by omega
          rw [this] at h6
          exact h6 h4
        have hi := ih (stop - 1) (by omega) hgt (by omega)
        have hT : TrimFunc ((s.take stop).drop start) IsSpace =
            TrimFunc ((s.take (stop - 1)).drop start) IsSpace := by
          unfold TrimFunc
          rw [TrimLeftFunc_slice s start stop hs hl h3 h4,
            TrimLeftFunc_slice s start (stop - 1) hgt (by omega) h3 h4,
            slice_snoc s start stop hs hl, TrimRightFunc_snoc_space _ _ h6]
        rw [hT]
        exact hi

theorem trimSpaceStart_eq (s : List Nat) (fuel start : Nat) (hf : s.length ≤ start + fuel)
    (hs : start ≤ s.length) :
    (∀ out, trimSpaceStart s fuel start = Scan.ret out → out = TrimFunc (s.drop start) IsSpace) ∧
      (∀ st, trimSpaceStart s fuel start = Scan.idx st →
        st ≤ s.length ∧ TrimFunc (s.drop st) IsSpace = TrimFunc (s.drop start) IsSpace ∧
          (st = s.length ∨ (s.getD st 0 < 0x80 ∧ asciiSpace (s.getD st 0) = 0))) := by
  induction fuel generalizing start with
  | zero =>
    simp only [trimSpaceStart]
    refine ⟨fun out h => (by cases h), fun st h => ?_⟩
    cases h
    exact ⟨hs, rfl, Or.inl (by omega)⟩
  | succ n ih =>
    simp only [trimSpaceStart]
    by_cases h1 : start < s.length
    · rw [if_pos h1]
      by_cases h2 : s.getD start 0 ≥ RuneSelf
      · rw [if_pos h2]
        refine ⟨fun out h => ?_, fun st h => ?_⟩
        · cases h; rfl
        · cases h
      · rw [if_neg h2]
        have hlt : s.getD start 0 < 0x80 := by simp only [RuneSelf] at h2; omega
        by_cases h3 : asciiSpace (s.getD start 0) = 0
        · rw [if_pos h3]
          refine ⟨fun out h => (by cases h), fun st h => ?_⟩
          cases h
          exact ⟨hs, rfl, Or.inr ⟨hlt, h3⟩⟩
        · rw [if_neg h3]
          have hi := ih (start + 1) (by omega) (by omega)
          have hT : TrimFunc (s.drop start) IsSpace = TrimFunc (s.drop (start + 1)) IsSpace := by
            unfold TrimFunc
            rw [drop_eq_getD_cons s start h1, TrimLeftFunc_cons_space _ _ h3]
          rw [hT]
          exact hi
    · rw [if_neg h1]
      refine ⟨fun out h => (by cases h), fun st h => ?_⟩
      cases h
      exact ⟨hs, rfl, Or.inl (by omega)⟩

/-- The ASCII fast path of `TrimSpace` computes what `TrimFunc(s, unicode.IsSpace)` does. -/
theorem TrimSpace_eq_TrimFunc (s : List Nat) : TrimSpace s = TrimFunc s IsSpace := by
  unfold TrimSpace
  obtain ⟨hret, hidx⟩ := trimSpaceStart_eq s s.length 0 (by omega) (by omega)
  cases h : trimSpaceStart s s.length 0 with
  | ret out => simpa using hret out h
  | idx start =>
    obtain ⟨hst, hT, hfirst⟩ := hidx start h
    simp only [List.drop_zero] at hT
    simp only
    rw [← hT]
    by_cases he : start = s.length
    · subst he
      have h0 : trimSpaceStop s s.length s.length s.length = Scan.idx s.length := by
        cases hs : s.length with
        | zero => rfl
        | succ n =>
          simp only [trimSpaceStop]
          rw [if_neg (by omega)]
      rw [h0]
      simp [TrimFunc_nil]
    · have hlt : start < s.length := by omega
      rcases hfirst with h5 | ⟨h3, h4⟩
      · exact absurd h5 he
      · obtain ⟨hret2, hidx2⟩ := trimSpaceStop_eq s start s.length s.length (by omega) hlt
          (le_refl _) h3 h4
        rw [List.take_length] at hret2 hidx2
        cases h2 : trimSpaceStop s start s.length s.length with
        | ret out => simpa using hret2 out h2
        | idx stop => simpa using hidx2 stop h2

end bytes

/-! ## Theorems: normalization of inbound payloads -/

namespace chat
open utf8 unicode bytes

theorem normalize_trimmed (data : List Nat) :
    leadingSpace (normalize data) = false ∧ trailingSpace (normalize data) = false ∧
      0x0A ∉ normalize data := by
  rw [normalize_eq]
  obtain ⟨hmem, hsp⟩ := TrimSpace_spec (data.map (fun b => if b = 0x0A then 0x20 else b))
  refine ⟨?_, ?_, fun h => newline_not_mem_map data (hmem _ h)⟩
  · rcases hsp with h | ⟨h, _⟩
    · rw [h]; rfl
    · simp [leadingSpace, h]
  · rcases hsp with h | ⟨_, h⟩
    · rw [h]; rfl
    · simp [trailingSpace, h]

theorem ReadLoop_bodies (self : ClientPtr) (c : Client) (reads : List ReadResult) :
    ∀ m ∈ broadcasts (ReadLoop self c reads).1, ∃ data, m.Body = normalize data := by
  induction reads with
  | nil => simp [ReadLoop, broadcasts]
  | cons r rest ih =>
    cases r with
    | error u => cases u <;> simp [ReadLoop, broadcasts]
    | frame t data =>
      intro m hm
      simp only [ReadLoop, List.cons_append, List.nil_append, broadcasts, List.mem_cons] at hm
      rcases hm with rfl | hm
      · exact ⟨data, rfl⟩
      · exact ih m hm

/-- C1: the body of every message the inbound pump submits has no leading and no
trailing white space (Unicode white space, as `bytes.TrimSpace` defines it) and contains
no newline byte; the payload `"  hello\nworld  \n"` yields the body `"hello world"`. -/
theorem ReadPump_body_trimmed (self : ClientPtr) (c : Client) (reads : List ReadResult) :
    (∀ m ∈ broadcasts (ReadPump self c reads).1,
        leadingSpace m.Body = false ∧ trailingSpace m.Body = false ∧ 0x0A ∉ m.Body) ∧
      broadcasts (ReadPump self c [ReadResult.frame 1
        [32, 32, 104, 101, 108, 108, 111, 10, 119, 111, 114, 108, 100, 32, 32, 10]]).1 =
        [{ Client := self, Author := [],
           Body := [104, 101, 108, 108, 111, 32, 119, 111, 114, 108, 100] }] := by
  constructor
  · intro m hm
    have hm2 : m ∈ broadcasts (ReadLoop self c reads).1 := by
      simpa [ReadPump, broadcasts] using hm
    obtain ⟨data, hd⟩ := ReadLoop_bodies self c reads m hm2
    rw [hd]
    exact normalize_trimmed data
  · have hn : bytes.TrimSpace (bytes.Replace
        [32, 32, 104, 101, 108, 108, 111, 10, 119, 111, 114, 108, 100, 32, 32, 10]
        newline space (-1)) = [104, 101, 108, 108, 111, 32, 119, 111, 114, 108, 100] := by
      decide
    simp [ReadPump, ReadLoop, broadcasts, hn]

/-- C2 (as stated, refuted): the payload `"a\n\nb"` yields the body `"a  b"` with two
spaces, not `"a b"`. -/
theorem normalize_keeps_run_length :
    normalize [97, 10, 10, 98] = [97, 32, 32, 98] ∧ normalize [97, 10, 10, 98] ≠ [97, 32, 98] := by
  decide

/-- The case in which nothing is trimmed and the payload has one run: `k ≥ 1` newlines
between content `a` that does not start with white space and content `b` that does not
end with white space (neither containing a newline) become exactly `k` spaces. -/
theorem normalize_newline_run (a b : List Nat) (k : Nat) (hk : 1 ≤ k)
    (ha : a ≠ []) (hb : b ≠ []) (hna : 0x0A ∉ a) (hnb : 0x0A ∉ b)
    (hla : leadingSpace a = false) (htb : trailingSpace b = false) :
    normalize (a ++ List.replicate k 0x0A ++ b) = a ++ List.replicate k 0x20 ++ b := by
  rw [normalize_eq]
  have hmap : (a ++ List.replicate k 0x0A ++ b).map (fun x => if x = 0x0A then 0x20 else x) =
      a ++ List.replicate k 0x20 ++ b := by
    simp only [List.map_append, map_id_of_absent 0x0A 0x20 a hna,
      map_id_of_absent 0x0A 0x20 b hnb, List.map_replicate]
    simp
  rw [hmap]
  obtain ⟨n, rfl⟩ : ∃ n, k = n + 1 := ⟨k - 1, by omega⟩
  have h1 : IsSpace (DecodeRune a).1 = false := by
    cases a with
    | nil => exact absurd rfl ha
    | cons x a => simpa [leadingSpace] using hla
  have h2 : IsSpace (DecodeLastRune b).1 = false := by
    cases b with
    | nil => exact absurd rfl hb
    | cons x b => simpa [trailingSpace] using htb
  apply TrimSpace_id
  · simp [ha]
  · have e : a ++ List.replicate (n + 1) 0x20 ++ b = a ++ 0x20 :: (List.replicate n 0x20 ++ b) := by
      simp [List.replicate_succ]
    rw [e, DecodeRune_append_ascii a 0x20 _ ha (by decide)]
    exact h1
  · have e : a ++ List.replicate (n + 1) 0x20 ++ b = (a ++ List.replicate n 0x20) ++ 0x20 :: b := by
      rw [List.replicate_succ']
      simp
    rw [e, DecodeLastRune_append_ascii _ 0x20 b hb (by decide)]
    exact h2

theorem replicate_cons_append (c : Nat) (n : Nat) (v : List Nat) :
    c :: (List.replicate n c ++ v) = List.replicate n c ++ c :: v := by
  have h1 : c :: (List.replicate n c ++ v) = List.replicate (n + 1) c ++ v := by
    rw [List.replicate_succ]; rfl
  rw [h1, List.replicate_succ']
  simp

/-- The body of every payload: each newline byte replaced by one space, then white space
cut off at the two ends as `TrimFunc(s, unicode.IsSpace)` does. -/
theorem normalize_eq_TrimFunc (data : List Nat) :
    normalize data =
      bytes.TrimFunc (data.map (fun b => if b = 0x0A then 0x20 else b)) unicode.IsSpace := by
  rw [normalize_eq, TrimSpace_eq_TrimFunc]

theorem normalize_run (x y : List Nat) (k : Nat) (hk : 1 ≤ k)
    (hx : normalizeLeft x ≠ []) (hy : normalizeRight y ≠ []) :
    normalize (x ++ List.replicate k 0x0A ++ y) =
      normalizeLeft x ++ List.replicate k 0x20 ++ normalizeRight y := by
  rw [normalize_eq_TrimFunc]
  unfold normalizeLeft normalizeRight newline space at *
  rw [Replace_single] at hx hy ⊢
  rw [Replace_single]
  obtain ⟨n, rfl⟩ : ∃ n, k = n + 1 := ⟨k - 1, by omega⟩
  have hmap : (x ++ List.replicate (n + 1) 0x0A ++ y).map (fun b => if b = 0x0A then 0x20 else b) =
      x.map (fun b => if b = 0x0A then 0x20 else b) ++
        0x20 :: (List.replicate n 0x20 ++ y.map (fun b => if b = 0x0A then 0x20 else b)) := by
    simp [List.replicate_succ]
  rw [hmap]
  unfold TrimFunc
  rw [TrimLeftFunc_append_ascii _ 0x20 _ (by decide) hx]
  have e1 : TrimLeftFunc (x.map (fun b => if b = 0x0A then 0x20 else b)) IsSpace ++
        0x20 :: (List.replicate n 0x20 ++ y.map (fun b => if b = 0x0A then 0x20 else b)) =
      (TrimLeftFunc (x.map (fun b => if b = 0x0A then 0x20 else b)) IsSpace ++
        List.replicate n 0x20) ++ 0x20 :: y.map (fun b => if b = 0x0A then 0x20 else b) := by
    rw [List.append_assoc]
    congr 1
    exact replicate_cons_append 0x20 n _
  rw [e1, TrimRightFunc_append_ascii _ 0x20 _ (by decide) hy]
  rw [List.replicate_succ']
  simp

/-- C2 (amended): for every payload `data` the body is the payload with each newline byte
replaced by one space, without collapsing, and white space cut off at the two ends only.
So each embedded newline run of every payload, `k ≥ 1` consecutive newlines with a part
`x` before and a part `y` after that are not all white space, is replaced by exactly `k`
spaces, between what the normalization leaves of `x` and of `y`. -/
theorem normalize_embedded_run (data x y : List Nat) (k : Nat) :
    normalize data =
        bytes.TrimFunc (data.map (fun b => if b = 0x0A then 0x20 else b)) unicode.IsSpace ∧
      (1 ≤ k → normalizeLeft x ≠ [] → normalizeRight y ≠ [] →
        normalize (x ++ List.replicate k 0x0A ++ y) =
          normalizeLeft x ++ List.replicate k 0x20 ++ normalizeRight y) :=
  ⟨normalize_eq_TrimFunc data, normalize_run x y k⟩

theorem normalize_embedded_run_witness :
    normalize ([97, 10, 98] ++ List.replicate 2 0x0A ++ [99]) =
        normalizeLeft [97, 10, 98] ++ List.replicate 2 0x20 ++ normalizeRight [99] ∧
      normalize [97, 10, 98, 10, 10, 99] = [97, 32, 98, 32, 32, 99] :=
  ⟨(normalize_embedded_run [97, 10, 98, 10, 10, 99] [97, 10, 98] [99] 2).2
      (by decide) (by decide) (by decide), by decide⟩

end chat

/-! ## Theorems: the pumps (`internal/chat/client.go`) -/

namespace chat

theorem coalesce_buf (ms : List Message) (cap : Nat) (closed : Bool) (w : List Nat) :
    coalesce ms.length { cap := cap, buf := ms, closed := closed } w =
      some ({ cap := cap, buf := [], closed := closed },
        w ++ (ms.map (fun m => newline ++ m.Body)).flatten) := by
  induction ms generalizing w with
  | nil => simp [coalesce]
  | cons m ms ih =>
    simp only [List.length_cons, coalesce, Chan.recv, ih]
    simp [List.append_assoc]

theorem intercalate_cons_eq (sep : List Nat) (x : List Nat) (xs : List (List Nat)) :
    sep.intercalate (x :: xs) = x ++ (xs.map (fun y => sep ++ y)).flatten := by
  induction xs generalizing x with
  | nil => simp [List.intercalate]
  | cons y ys ih =>
    have h := ih y
    simp only [List.intercalate, List.intersperse, List.flatten_cons, List.map_cons] at h ⊢
    rw [h]
    simp [List.append_assoc]

theorem broadcasts_append (xs ys : List Event) :
    broadcasts (xs ++ ys) = broadcasts xs ++ broadcasts ys := by
  induction xs with
  | nil => rfl
  | cons e xs ih => cases e <;> simp [broadcasts, ih]

theorem ReadLoop_frames (self : ClientPtr) (c : Client) (fs : List (Nat × List Nat))
    (rest : List ReadResult) :
    ReadLoop self c (fs.map (fun f => ReadResult.frame f.1 f.2) ++ rest) =
      ((fs.map (fun f => [Event.LogData (normalize f.2), Event.MessageReadSend,
          Event.MessageReadRecv,
          Event.Broadcast { Client := self, Author := [], Body := normalize f.2 }])).flatten
        ++ (ReadLoop self c rest).1, (ReadLoop self c rest).2) := by
  induction fs with
  | nil => simp
  | cons f fs ih => simp [ReadLoop, ih, normalize]


theorem coalesce_len (ch : Chan) (w : List Nat) :
    coalesce ch.len ch w =
      some ({ ch with buf := [] }, w ++ (ch.buf.map (fun m => newline ++ m.Body)).flatten) := by
  cases ch with
  | mk cap buf closed => exact coalesce_buf buf cap closed w

theorem ReadLoop_author (self : ClientPtr) (c : Client) (reads : List ReadResult) :
    ∀ m ∈ broadcasts (ReadLoop self c reads).1, m.Author = [] := by
  induction reads with
  | nil => simp [ReadLoop, broadcasts]
  | cons r rest ih =>
    cases r with
    | error u => cases u <;> simp [ReadLoop, broadcasts]
    | frame t data =>
      intro m hm
      simp only [ReadLoop, List.cons_append, List.nil_append, broadcasts, List.mem_cons] at hm
      rcases hm with rfl | hm
      · rfl
      · exact ih m hm

/-- C3 (code defect): the session `alice` reads the frame `hi`; the message that
`ReadPump` submits to the broadcast intake has the empty sender label, not `alice`.
In general every message `ReadPump` submits has the empty sender label, whatever the
session's display name. -/
theorem ReadPump_author_not_username :
    broadcasts (ReadPump ⟨7⟩ aliceSession [ReadResult.frame 1 [104, 105]]).1 =
        [{ Client := ⟨7⟩, Author := [], Body := [104, 105] }] ∧
      (∀ m ∈ broadcasts (ReadPump ⟨7⟩ aliceSession [ReadResult.frame 1 [104, 105]]).1,
        m.Author ≠ aliceSession.Username) ∧
      (∀ (self : ClientPtr) (c : Client) (reads : List ReadResult),
        ∀ m ∈ broadcasts (ReadPump self c reads).1, m.Author = []) := by
  refine ⟨by decide, by decide, ?_⟩
  intro self c reads m hm
  exact ReadLoop_author self c reads m (by simpa [ReadPump, broadcasts] using hm)

/-- C4 (as stated, refuted): with two messages queued, a wake on the mailbox whose
`conn.NextWriter` fails removes one message only and writes no frame. -/
theorem WritePump_coalescing_needs_writer :
    ¬ ((WritePumpMailbox (bufferedSession [msgHi, msgYo]) none true false).send.buf = [] ∧
        frames (WritePumpMailbox (bufferedSession [msgHi, msgYo]) none true false).events =
          [coalesced [msgHi, msgYo]]) := by
  decide

/-- A wake on the mailbox with the messages `m :: ms` queued and a frame writer
available: the whole result of the step. -/
theorem WritePumpMailbox_flush (c : Client) (m : Message) (ms : List Message)
    (handoff : Option Message) (closeErr : Bool) (hq : c.send.buf = m :: ms) :
    WritePumpMailbox c handoff false closeErr =
      { send := { c.send with buf := [] },
        events := [Event.SetWriteDeadline writeWait, Event.Frame (coalesced (m :: ms)) closeErr],
        outcome := if closeErr then Outcome.returned else Outcome.again } := by
  rcases hc : c.send with ⟨cap, buf, closed⟩
  simp only [hc] at hq
  subst hq
  have hco := coalesce_len { cap := cap, buf := ms, closed := closed }
    (m.Author ++ [0x3A, 0x20] ++ m.Body)
  have hi := intercalate_cons_eq newline m.Body (ms.map Message.Body)
  simp only [List.map_map] at hi
  simp only [WritePumpMailbox, hc, Chan.recv, hco, coalesced, List.headD_cons, List.map_cons]
  rw [hi]
  cases closeErr <;> simp [Function.comp_def, List.append_assoc]

/-- C4 (amended): if exactly the `k ≥ 1` messages `msgs` are queued in the mailbox when
the outbound pump wakes on a mailbox entry, nothing is enqueued during the step, and
`conn.NextWriter` returns no error, then the step empties the mailbox and writes one
single frame holding the bodies of all `k` messages in queue order (after the first
message's sender label and `": "`, separated by newlines); whatever is scheduled after the
step, that frame is the first one written. -/
theorem WritePump_coalescing_bound (c : Client) (msgs : List Message) (k : Nat)
    (handoff : Option Message) (closeErr : Bool)
    (hk : 1 ≤ k) (hlen : msgs.length = k) (hq : c.send.buf = msgs) :
    (WritePumpMailbox c handoff false closeErr).send.buf = [] ∧
      (WritePumpMailbox c handoff false closeErr).events =
        [Event.SetWriteDeadline writeWait, Event.Frame (coalesced msgs) closeErr] ∧
      frames (WritePumpMailbox c handoff false closeErr).events = [coalesced msgs] ∧
      (WritePumpMailbox c handoff false closeErr).send.cap = c.send.cap ∧
      ∀ later : List Sched,
        (frames (WritePump c (Sched.mailbox handoff false closeErr :: later)).2).head? =
          some (coalesced msgs) := by
  cases msgs with
  | nil => simp at hlen; omega
  | cons m ms =>
    have h := WritePumpMailbox_flush c m ms handoff closeErr hq
    refine ⟨by rw [h], by rw [h], by rw [h]; simp [frames], by rw [h], ?_⟩
    intro later
    simp only [WritePump, h]
    cases closeErr <;> simp [frames]

theorem WritePump_coalescing_bound_witness :
    (WritePumpMailbox (bufferedSession [msgHi, msgYo]) none false false).send.buf = [] ∧
      (WritePumpMailbox (bufferedSession [msgHi, msgYo]) none false false).events =
        [Event.SetWriteDeadline writeWait,
          Event.Frame (coalesced [msgHi, msgYo]) false] ∧
      frames (WritePumpMailbox (bufferedSession [msgHi, msgYo]) none false false).events =
        [coalesced [msgHi, msgYo]] ∧
      (WritePumpMailbox (bufferedSession [msgHi, msgYo]) none false false).send.cap =
        (bufferedSession [msgHi, msgYo]).send.cap ∧
      ∀ later : List Sched,
        (frames (WritePump (bufferedSession [msgHi, msgYo])
          (Sched.mailbox none false false :: later)).2).head? =
          some (coalesced [msgHi, msgYo]) :=
  WritePump_coalescing_bound (bufferedSession [msgHi, msgYo]) [msgHi, msgYo] 2 none false
    (by decide) (by decide) (by decide)

theorem construct_ids (args : Nat → Nat × Nat × Chan) (n counterID : Nat)
    (h0 : counterID < 2 ^ 64) :
    (construct args n counterID).1.map Client.ID =
        (List.range n).map (fun i => (counterID + i + 1) % 2 ^ 64) ∧
      (construct args n counterID).2 = (counterID + n) % 2 ^ 64 := by
  induction n with
  | zero =>
    refine ⟨by simp [construct], ?_⟩
    show counterID = (counterID + 0) % 2 ^ 64
    rw [Nat.add_zero, Nat.mod_eq_of_lt h0]
  | succ n ih =>
    obtain ⟨h1, h2⟩ := ih
    simp only [construct, New, newID, Uint64Add, Uint64Load, List.map_append, h1, h2,
      List.range_succ, List.map_cons, List.map_nil]
    refine ⟨?_, ?_⟩
    · congr 2
      omega
    · omega

/-- When the calls of `New` do not overlap: starting from `counterID = 0`, of `n < 2 ^ 64`
constructions run one after another the `i`-th (counting from 1) gets id `i`; the ids are
strictly increasing in construction order and pairwise distinct. -/
theorem New_ids_sequential (args : Nat → Nat × Nat × Chan) (n : Nat) (hn : n < 2 ^ 64) :
    (construct args n 0).1.map Client.ID = (List.range n).map (fun i => i + 1) ∧
      ((construct args n 0).1.map Client.ID).Pairwise (fun a b => a < b) ∧
      ((construct args n 0).1.map Client.ID).Nodup := by
  have key : (construct args n 0).1.map Client.ID = (List.range n).map (fun i => i + 1) := by
    rw [(construct_ids args n 0 (by decide)).1]
    apply List.map_congr_left
    intro i hi
    have hi1 : i < n := List.mem_range.mp hi
    have : i + 1 < 2 ^ 64 := by omega
    show (0 + i + 1) % 2 ^ 64 = i + 1
    rw [Nat.zero_add]
    exact Nat.mod_eq_of_lt this
  have hpw : ((List.range n).map (fun i => i + 1)).Pairwise (fun a b => a < b) := by
    rw [List.pairwise_map]
    exact (List.pairwise_lt_range n).imp (fun h => Nat.succ_lt_succ h)
  refine ⟨key, ?_, ?_⟩
  · rw [key]; exact hpw
  · rw [key]; exact hpw.imp (fun h => Nat.ne_of_lt h)

theorem New_ids_sequential_witness :
    (construct (fun _ => (0, 0, Chan.make 0)) 3 0).1.map Client.ID =
        (List.range 3).map (fun i => i + 1) ∧
      ((construct (fun _ => (0, 0, Chan.make 0)) 3 0).1.map Client.ID).Pairwise
        (fun a b => a < b) ∧
      ((construct (fun _ => (0, 0, Chan.make 0)) 3 0).1.map Client.ID).Nodup :=
  New_ids_sequential (fun _ => (0, 0, Chan.make 0)) 3 (by decide)

/-- A goroutine that takes its two steps with no other step in between does what `New`
does. -/
theorem New_as_steps (hub conn : Nat) (send : Chan) (counterID : Nat) :
    NewState.step ((NewState.start hub conn send).step counterID).1
        ((NewState.start hub conn send).step counterID).2 =
      ((New hub conn send counterID).2, NewState.done (New hub conn send counterID).1) := rfl

/-- C7 (code defect): two sessions are constructed concurrently from `counterID = 0`.
When the `counterID.Add(1)` of both calls runs before either `counterID.Load()`, both
sessions get id 2: two sessions share an id and no session gets id 1.  (Run one after
the other, the same two calls get ids 1 and 2.) -/
theorem New_ids_collide_interleaved :
    NewConcurrent [0, 1, 0, 1] 0
        [NewState.start 0 1 (Chan.make 0), NewState.start 0 2 (Chan.make 0)] =
        (2, [NewState.done { ID := 2, Username := [], hub := 0, conn := 1, send := Chan.make 0 },
             NewState.done { ID := 2, Username := [], hub := 0, conn := 2, send := Chan.make 0 }]) ∧
      NewConcurrent [0, 0, 1, 1] 0
        [NewState.start 0 1 (Chan.make 0), NewState.start 0 2 (Chan.make 0)] =
        (2, [NewState.done { ID := 1, Username := [], hub := 0, conn := 1, send := Chan.make 0 },
             NewState.done { ID := 2, Username := [], hub := 0, conn := 2, send := Chan.make 0 }]) := by
  decide

theorem count_frame_events (self : ClientPtr) (fs : List (Nat × List Nat)) (e : Event)
    (he : ∀ d, e ≠ Event.LogData d) (h1 : e ≠ Event.MessageReadSend)
    (h2 : e ≠ Event.MessageReadRecv) (h3 : ∀ m, e ≠ Event.Broadcast m) :
    ((fs.map (fun f => [Event.LogData (normalize f.2), Event.MessageReadSend,
          Event.MessageReadRecv,
          Event.Broadcast { Client := self, Author := [], Body := normalize f.2 }])).flatten).count
      e = 0 := by
  rw [List.count_eq_zero]
  intro hmem
  simp only [List.mem_flatten, List.mem_map] at hmem
  obtain ⟨l, ⟨f, _, rfl⟩, hl⟩ := hmem
  simp only [List.mem_cons, List.mem_singleton, List.not_mem_nil, or_false] at hl
  rcases hl with h | h | h | h
  · exact he _ h
  · exact h1 h
  · exact h2 h
  · exact h3 _ h

theorem broadcasts_frame_events (self : ClientPtr) (fs : List (Nat × List Nat)) :
    broadcasts ((fs.map (fun f => [Event.LogData (normalize f.2), Event.MessageReadSend,
          Event.MessageReadRecv,
          Event.Broadcast { Client := self, Author := [], Body := normalize f.2 }])).flatten) =
      fs.map (fun f => { Client := self, Author := [], Body := normalize f.2 }) := by
  induction fs with
  | nil => rfl
  | cons f fs ih =>
    simp only [List.map_cons, List.flatten_cons, broadcasts_append, ih]
    simp [broadcasts]

/-- C9: when the inbound pump of the session at `self` reads the frames `fs`
successfully and then gets its first read error, it submits exactly one message per
frame, in read order, the `i`-th with this session as originator and the normalization of
the `i`-th frame as body; after the error it returns having submitted nothing more and
issued exactly one unregister followed by exactly one transport close. -/
theorem ReadPump_sender_order (self : ClientPtr) (c : Client) (fs : List (Nat × List Nat))
    (unexpectedClose : Bool) (rest : List ReadResult) :
    (ReadPump self c
        (fs.map (fun f => ReadResult.frame f.1 f.2) ++ ReadResult.error unexpectedClose :: rest)).2
        = true ∧
      broadcasts (ReadPump self c
        (fs.map (fun f => ReadResult.frame f.1 f.2) ++ ReadResult.error unexpectedClose :: rest)).1
        = fs.map (fun f => { Client := self, Author := [], Body := normalize f.2 }) ∧
      (broadcasts (ReadPump self c
        (fs.map (fun f => ReadResult.frame f.1 f.2) ++ ReadResult.error unexpectedClose :: rest)).1
        ).length = fs.length ∧
      (ReadPump self c
        (fs.map (fun f => ReadResult.frame f.1 f.2) ++ ReadResult.error unexpectedClose :: rest)).1
        = [Event.SetReadLimit maxMessageSize, Event.SetReadDeadline pongWait,
            Event.SetPongHandler] ++
          (fs.map (fun f => [Event.LogData (normalize f.2), Event.MessageReadSend,
            Event.MessageReadRecv,
            Event.Broadcast { Client := self, Author := [], Body := normalize f.2 }])).flatten ++
          (if unexpectedClose then [Event.LogError] else []) ++
          [Event.Unregister self, Event.ConnClose] ∧
      (ReadPump self c
        (fs.map (fun f => ReadResult.frame f.1 f.2) ++ ReadResult.error unexpectedClose :: rest)
        ).1.count (Event.Unregister self) = 1 ∧
      (ReadPump self c
        (fs.map (fun f => ReadResult.frame f.1 f.2) ++ ReadResult.error unexpectedClose :: rest)
        ).1.count Event.ConnClose = 1 := by
  have hev : (ReadPump self c
        (fs.map (fun f => ReadResult.frame f.1 f.2) ++ ReadResult.error unexpectedClose :: rest)).1
        = [Event.SetReadLimit maxMessageSize, Event.SetReadDeadline pongWait,
            Event.SetPongHandler] ++
          (fs.map (fun f => [Event.LogData (normalize f.2), Event.MessageReadSend,
            Event.MessageReadRecv,
            Event.Broadcast { Client := self, Author := [], Body := normalize f.2 }])).flatten ++
          (if unexpectedClose then [Event.LogError] else []) ++
          [Event.Unregister self, Event.ConnClose] := by
    simp only [ReadPump, ReadLoop_frames, ReadLoop]
    simp [List.append_assoc]
  have hb : broadcasts (ReadPump self c
        (fs.map (fun f => ReadResult.frame f.1 f.2) ++ ReadResult.error unexpectedClose :: rest)).1
        = fs.map (fun f => { Client := self, Author := [], Body := normalize f.2 }) := by
    rw [hev]
    simp only [broadcasts_append, broadcasts_frame_events]
    cases unexpectedClose <;> simp [broadcasts]
  refine ⟨?_, hb, ?_, hev, ?_, ?_⟩
  · simp [ReadPump, ReadLoop_frames, ReadLoop]
  · rw [hb, List.length_map]
  · rw [hev]
    simp only [List.count_append]
    rw [count_frame_events self fs _ (by simp) (by simp) (by simp) (by simp)]
    cases unexpectedClose <;> simp [List.count_cons]
  · rw [hev]
    simp only [List.count_append]
    rw [count_frame_events self fs _ (by simp) (by simp) (by simp) (by simp)]
    cases unexpectedClose <;> simp [List.count_cons]

theorem coalesce_zero (ch : Chan) (w : List Nat) : coalesce 0 ch w = some (ch, w) := rfl

theorem frames_append (xs ys : List Event) : frames (xs ++ ys) = frames xs ++ frames ys := by
  induction xs with
  | nil => rfl
  | cons e xs ih => cases e <;> simp [frames, ih]

/-- A mailbox of capacity 0 stays empty along every schedule, and the data frames
written are, in order, the renderings of the messages handed over at the wake-ups. -/
theorem WritePump_unbuffered (c : Client) (sched : List Sched)
    (hcap : c.send.cap = 0) (hbuf : c.send.buf = []) :
    (WritePump c sched).1.cap = 0 ∧ (WritePump c sched).1.buf = [] ∧
      ∃ rest, (handed sched).map Message.String = frames (WritePump c sched).2 ++ rest := by
  induction sched generalizing c with
  | nil => simp [WritePump, hcap, hbuf, frames, handed]
  | cons e rest ih =>
    rcases hc : c.send with ⟨cap, buf, closed⟩
    simp only [hc] at hcap hbuf
    subst hcap hbuf
    cases e with
    | enqueue m =>
      simp only [WritePump, handed]
      apply ih
      · simp [Chan.enqueue, hc]
      · simp [Chan.enqueue, hc]
    | close =>
      simp only [WritePump, handed]
      apply ih <;> simp [Chan.close, hc]
    | tick pingErr =>
      cases pingErr
      · simp only [WritePump, WritePumpTick, handed]
        have h := ih { c with send := c.send } (by simp [hc]) (by simp [hc])
        simpa [frames_append, frames, hc] using h
      · simp [WritePump, WritePumpTick, hc, frames, handed]
    | mailbox handoff nextWriterErr closeErr =>
      cases closed
      · cases handoff with
        | none =>
          simp only [WritePump, WritePumpMailbox, hc, Chan.recv, handed]
          exact ih c (by simp [hc]) (by simp [hc])
        | some m =>
          cases nextWriterErr
          · cases closeErr
            · simp only [WritePump, WritePumpMailbox, hc, Chan.recv, Chan.len, List.length_nil,
                coalesce_zero, Bool.not_true, Bool.false_eq_true, if_false, ite_true, handed]
              have h := ih { c with send := { cap := 0, buf := [], closed := false } }
                (by simp) (by simp)
              refine ⟨by simpa using h.1, by simpa using h.2.1, ?_⟩
              obtain ⟨r, hr⟩ := h.2.2
              refine ⟨r, ?_⟩
              simp only [frames_append, frames, List.map_cons]
              rw [hr]
              simp [Message.String]
            · simp only [WritePump, WritePumpMailbox, hc, Chan.recv, Chan.len, List.length_nil,
                coalesce_zero, Bool.not_true, Bool.false_eq_true, if_false, ite_true, handed]
              refine ⟨by simp, by simp, ⟨(handed rest).map Message.String, ?_⟩⟩
              simp [frames, Message.String]
          · simp [WritePump, WritePumpMailbox, hc, Chan.recv, frames, handed]
      · simp [WritePump, WritePumpMailbox, hc, Chan.recv, frames]

/-- On an open mailbox of capacity 0, a wake-up at which the message `m` is handed over
and the frame writer opens writes the frame `m.String()` and nothing more. -/
theorem WritePumpMailbox_unbuffered (c : Client) (m : Message) (closeErr : Bool)
    (hsend : c.send = Chan.make 0) :
    WritePumpMailbox c (some m) false closeErr =
      { send := Chan.make 0,
        events := [Event.SetWriteDeadline writeWait, Event.Frame m.String closeErr],
        outcome := if closeErr then Outcome.returned else Outcome.again } := by
  cases closeErr <;>
    simp [WritePumpMailbox, hsend, Chan.make, Chan.recv, Chan.len, coalesce_zero,
      Message.String]

theorem WritePump_unbuffered_all (c : Client) (ms : List Message) (hsend : c.send = Chan.make 0) :
    frames (WritePump c (ms.map (fun m => Sched.mailbox (some m) false false))).2 =
      ms.map Message.String := by
  induction ms generalizing c with
  | nil => simp [WritePump, frames]
  | cons m ms ih =>
    simp only [List.map_cons, WritePump, WritePumpMailbox_unbuffered c m false hsend]
    simp only [Bool.false_eq_true, if_false, frames_append, frames]
    have h := ih { c with send := Chan.make 0 } rfl
    simp only [List.append_eq, List.nil_append, List.cons_append] at h ⊢
    rw [h]

/-- C10: whatever hub, connection and channel `New` is given, the client it returns
has a fresh mailbox of capacity 0 (the channel passed in is ignored: any other channel
gives the same client).  Along every schedule of its `WritePump` the mailbox length stays
0; after each receive the snapshot `len(c.send)` is 0 and the coalescing loop leaves the
mailbox and the frame as they are; the data frames written are, in order, the renderings
`Author + ": " + Body` (the bytes of `Message.String`) of the messages handed over, one
message per frame; and when every wake-up hands over a message and no call fails, the
frames are exactly those messages' renderings. -/
theorem New_mailbox_unbuffered (hub conn : Nat) (send other : Chan) (counterID : Nat)
    (sched : List Sched) :
    (New hub conn send counterID).1.send = Chan.make 0 ∧
      (New hub conn send counterID).1.send.cap = 0 ∧
      New hub conn send counterID = New hub conn other counterID ∧
      (WritePump (New hub conn send counterID).1 sched).1.len = 0 ∧
      (∀ (handoff : Option Message) (r : (Message × Bool) × Chan) (w : List Nat),
        (WritePump (New hub conn send counterID).1 sched).1.recv handoff = some r →
          r.2.len = 0 ∧ coalesce r.2.len r.2 w = some (r.2, w)) ∧
      (∃ rest, (handed sched).map Message.String =
        frames (WritePump (New hub conn send counterID).1 sched).2 ++ rest) ∧
      (∀ (m : Message) (closeErr : Bool),
        WritePumpMailbox (New hub conn send counterID).1 (some m) false closeErr =
          { send := Chan.make 0,
            events := [Event.SetWriteDeadline writeWait,
              Event.Frame (m.Author ++ [0x3A, 0x20] ++ m.Body) closeErr],
            outcome := if closeErr then Outcome.returned else Outcome.again }) ∧
      (∀ ms : List Message,
        frames (WritePump (New hub conn send counterID).1
          (ms.map (fun m => Sched.mailbox (some m) false false))).2 =
          ms.map (fun m => m.Author ++ [0x3A, 0x20] ++ m.Body)) ∧
      (∀ m : Message, m.String = m.Author ++ [0x3A, 0x20] ++ m.Body) := by
  have h := WritePump_unbuffered (New hub conn send counterID).1 sched rfl rfl
  refine ⟨rfl, rfl, rfl, ?_, ?_, h.2.2, ?_, ?_, fun m => rfl⟩
  · simp [Chan.len, h.2.1]
  · intro handoff r w hr
    have hbuf := h.2.1
    have hlen : r.2.len = 0 := by
      simp only [Chan.recv, hbuf] at hr
      split_ifs at hr with hcl
      · cases hr; simp [Chan.len, hbuf]
      · cases handoff with
        | none => simp at hr
        | some m => simp at hr; cases hr; simp [Chan.len, hbuf]
    exact ⟨hlen, by rw [hlen, coalesce_zero]⟩
  · intro m closeErr
    exact WritePumpMailbox_unbuffered _ m closeErr rfl
  · intro ms
    exact WritePump_unbuffered_all _ ms rfl

end chat

/-! ## Theorems: the identity gate and the handlers (`internal/server`, `internal/clients`) -/

namespace server

/-- C5 (code defect): the middleware does not stop at a failure.  With a valid token
and a failing remote `Find` it writes status 500 and still calls the protected handler;
with a malformed credential (nil token) and with a token lacking `uid` it panics. -/
theorem authenticateUser_does_not_reject :
    Server.authenticateUser theServer theLib (protectedHandler theServer) ⟨"valid", ""⟩ =
        ⟨[Effect.SlogError "error: grpc.Find: rpc error: code = Unavailable",
          Effect.SetHeader "Content-Type" "application/json",
          Effect.WriteHeader StatusInternalServerError,
          Effect.Encode "grpc.Find: rpc error: code = Unavailable",
          Effect.Next ⟨"00000000-0000-0000-0000-000000000000", ""⟩,
          Effect.SetHeader "Content-Type" "application/json",
          Effect.WriteHeader StatusOK,
          Effect.Encode "secret"], false⟩ ∧
      (Server.authenticateUser theServer theLib (protectedHandler theServer)
        ⟨"garbage", ""⟩).panicked = true ∧
      (Server.authenticateUser theServer theLib (protectedHandler theServer)
        ⟨"no-uid", ""⟩).panicked = true := by
  decide

/-- C6 (code defect): when the remote `Register` call fails, the SSO client's
`Register` returns the empty identifier with a nil error, and the handler of
`POST /register` answers `201 Created`. -/
theorem Register_swallows_remote_error :
    (theServer.sso.api.Register "a@b.c" "pw").2 ≠ none ∧
      theServer.sso.Register "a@b.c" "pw" = ("", none) ∧
      Server.Register theServer theLib ⟨"", "body"⟩ =
        ⟨[Effect.LoggerInfo,
          Effect.SetHeader "Content-Type" "application/json",
          Effect.WriteHeader StatusCreated,
          Effect.Encode ""], false⟩ := by
  decide

end server

/-! ## Theorems: configuration (`internal/config`) -/

namespace config

/-- C8 (code defect): without the `-config` flag `fetchConfigPath` returns the flag's
built-in default path, whether `CONFIG_PATH` is set or not: the environment is not
consulted and the result is not empty, so `MustLoad` loads the default path. -/
theorem fetchConfigPath_default_shadows_env :
    fetchConfigPath ⟨none, none, none⟩
        (fun k => if k = "CONFIG_PATH" then "/etc/chat.yaml" else "") =
        some (configDefault, ⟨"chat-secret", 1⟩) ∧
      fetchConfigPath ⟨none, none, none⟩ (fun _ => "") =
        some (configDefault, ⟨"chat-secret", 1⟩) ∧
      configDefault ≠ "/etc/chat.yaml" ∧ configDefault ≠ "" ∧
      MustLoad ⟨none, none, none⟩ (fun k => if k = "CONFIG_PATH" then "/etc/chat.yaml" else "")
        (fun path => some path) = some (configDefault, ⟨"chat-secret", 1⟩) := by
  decide

end config

